import Mathlib

set_option maxRecDepth 1000000

/-!
# Tuna chaincode: a verification development

A shallow embedding of `fabric-material/chaincode/tuna-app/tuna-chaincode.go`.

* Go strings and byte slices are byte lists (`Bytes`); a Go string is not required to be
  valid UTF-8, and neither are the chaincode's arguments.
* The ledger stub (`APIstub`), which the Go code receives from the platform, is an explicit
  value of type `Stub` that every handler takes and returns. Each call of the stub may fail,
  as the platform decides: a read, a write (which then writes nothing), the range scan and
  each step of its iteration.
* `encoding/json`, `unicode/utf8`, `unicode/utf16` and `strconv.Itoa` are embedded as far as
  the chaincode exercises them: marshalling a `Tuna`, and unmarshalling arbitrary bytes into
  a `Tuna`.
* Output written with `fmt.Println` / `fmt.Printf` is not part of the model.
-/

namespace TunaChaincode

/-! ## Bytes -/

/-- One byte. -/
abbrev Byte := Fin 256

/-- A Go `string` or `[]byte`: a finite sequence of bytes. -/
abbrev Bytes := List Byte

/-- Conversion `byte(n)` of a non-negative integer: the low eight bits. -/
def byte (n : Nat) : Byte := ⟨n % 256, Nat.mod_lt n (by decide)⟩

/-- The bytes of an ASCII string literal of the Go source. -/
def str (s : String) : Bytes := s.toList.map (fun c => byte c.toNat)

/-! ## unicode/utf8 -/

namespace utf8

/-- The constant `utf8.RuneError`, U+FFFD. -/
def RuneError : Nat := 0xFFFD

/-- The constant `utf8.MaxRune`. -/
def MaxRune : Nat := 0x10FFFF

/-- The table `first` together with `acceptRanges`: for a leading byte, the length of the
sequence it starts and the range accepted for the second byte. Length `1` is the entry `as`
(ASCII), length `0` is the entry `xx` (invalid leading byte). -/
def first (p0 : Byte) : Nat × Nat × Nat :=
  if p0.val < 0x80 then (1, 0, 0)
  else if p0.val < 0xC2 then (0, 0, 0)
  else if p0.val < 0xE0 then (2, 0x80, 0xBF)
  else if p0.val = 0xE0 then (3, 0xA0, 0xBF)
  else if p0.val < 0xED then (3, 0x80, 0xBF)
  else if p0.val = 0xED then (3, 0x80, 0x9F)
  else if p0.val < 0xF0 then (3, 0x80, 0xBF)
  else if p0.val = 0xF0 then (4, 0x90, 0xBF)
  else if p0.val < 0xF4 then (4, 0x80, 0xBF)
  else if p0.val = 0xF4 then (4, 0x80, 0x8F)
  else (0, 0, 0)

/-- The function `utf8.DecodeRune` (and `DecodeRuneInString`): the first rune of `p` and the
number of bytes it occupies; `(RuneError, 1)` for an invalid or truncated sequence and
`(RuneError, 0)` for empty input. The masks and shifts of the Go code are written
arithmetically: `b & 0x3F` is `b % 64`, `x << 6 | y` with `y < 64` is `x * 64 + y`. -/
def DecodeRune : Bytes → Nat × Nat
  | [] => (RuneError, 0)
  | p0 :: rest =>
    match first p0 with
    | (sz, lo, hi) =>
      if sz = 1 then (p0.val, 1)
      else if sz = 0 then (RuneError, 1)
      else
        match rest with
        | [] => (RuneError, 1)
        | b1 :: rest1 =>
          if b1.val < lo ∨ hi < b1.val then (RuneError, 1)
          else if sz ≤ 2 then ((p0.val % 32) * 64 + b1.val % 64, 2)
          else
            match rest1 with
            | [] => (RuneError, 1)
            | b2 :: rest2 =>
              if b2.val < 0x80 ∨ 0xBF < b2.val then (RuneError, 1)
              else if sz ≤ 3 then
                ((p0.val % 16) * 4096 + (b1.val % 64) * 64 + b2.val % 64, 3)
              else
                match rest2 with
                | [] => (RuneError, 1)
                | b3 :: _ =>
                  if b3.val < 0x80 ∨ 0xBF < b3.val then (RuneError, 1)
                  else
                    ((p0.val % 8) * 262144 + (b1.val % 64) * 4096 + (b2.val % 64) * 64
                      + b3.val % 64, 4)

/-- The three-byte encoding used by `EncodeRune` for runes up to U+FFFF. -/
def encode3 (r : Nat) : Bytes :=
  [byte (0xE0 + r / 4096), byte (0x80 + (r / 64) % 64), byte (0x80 + r % 64)]

/-- The function `utf8.EncodeRune`: the UTF-8 encoding of a rune; a surrogate or a value
above `MaxRune` is encoded as `RuneError`. -/
def EncodeRune (r : Nat) : Bytes :=
  if r ≤ 0x7F then [byte r]
  else if r ≤ 0x7FF then [byte (0xC0 + r / 64), byte (0x80 + r % 64)]
  else if MaxRune < r ∨ (0xD800 ≤ r ∧ r ≤ 0xDFFF) then encode3 RuneError
  else if r ≤ 0xFFFF then encode3 r
  else
    [byte (0xF0 + r / 262144), byte (0x80 + (r / 4096) % 64), byte (0x80 + (r / 64) % 64),
      byte (0x80 + r % 64)]

/-- The loop of `utf8.Valid`: every position decodes to a rune, none to the error marker of
width one. At most `fuel` runes are examined. -/
def validLoop : Nat → Bytes → Bool
  | 0, p => p.isEmpty
  | _ + 1, [] => true
  | fuel + 1, p0 :: rest =>
    match DecodeRune (p0 :: rest) with
    | (r, size) =>
      if r = RuneError ∧ size = 1 then false
      else validLoop fuel ((p0 :: rest).drop size)

/-- The function `utf8.Valid` (and `ValidString`): `p` consists of valid UTF-8 only. -/
def Valid (p : Bytes) : Bool := validLoop p.length p

/-- The byte sequence `pre` is the UTF-8 encoding of the rune `c`: in front of any input,
`DecodeRune` reads `c` off `pre`, without error, and `EncodeRune` gives `pre` back. -/
def Encodes (pre : Bytes) (c : Nat) : Prop :=
  pre ≠ [] ∧ (∀ tl, DecodeRune (pre ++ tl) = (c, pre.length)) ∧
    ¬ (c = RuneError ∧ pre.length = 1) ∧ EncodeRune c = pre

/-- A byte sequence that is a concatenation of encoded runes. -/
inductive WellFormed : Bytes → Prop where
  | nil : WellFormed []
  | cons (pre tl : Bytes) (c : Nat) : Encodes pre c → WellFormed tl → WellFormed (pre ++ tl)

/-- The rune that `EncodeRune` really encodes: `RuneError` in place of a surrogate or of a
value above `MaxRune`. -/
def scalar (r : Nat) : Nat :=
  if MaxRune < r ∨ (0xD800 ≤ r ∧ r ≤ 0xDFFF) then RuneError else r

end utf8

/-! ## unicode/utf16 -/

namespace utf16

/-- The function `utf16.IsSurrogate`. -/
def IsSurrogate (r : Nat) : Bool := decide (0xD800 ≤ r ∧ r < 0xE000)

/-- The function `utf16.DecodeRune` on a first code unit `r1` and an optional second one
(`none` stands for the `-1` that `getu4` returns on failure): the code point of a valid
surrogate pair, U+FFFD otherwise. -/
def DecodeRune (r1 : Nat) (r2 : Option Nat) : Nat :=
  match r2 with
  | some r2 =>
    if 0xD800 ≤ r1 ∧ r1 < 0xDC00 ∧ 0xDC00 ≤ r2 ∧ r2 < 0xE000 then
      (r1 - 0xD800) * 1024 + (r2 - 0xDC00) + 0x10000
    else 0xFFFD
  | none => 0xFFFD

end utf16

/-! ## strconv -/

/-- The function `strconv.Itoa` on a non-negative integer: its decimal digits. -/
def Itoa (n : Nat) : Bytes := (Nat.toDigits 10 n).map (fun c => byte c.toNat)

/-! ## The record -/

/-- The struct `Tuna`; every field is a Go string. -/
structure Tuna where
  ID : Bytes
  Temperature : Bytes
  Humidity : Bytes
  Location : Bytes
  Timestamp : Bytes
  Agreement : Bytes
  Status : Bytes
  deriving DecidableEq

/-- The zero value `Tuna{}`. -/
def Tuna.zero : Tuna := ⟨[], [], [], [], [], [], []⟩

/-! ## encoding/json -/

namespace json

/-- The table `hex`. -/
def hex (n : Nat) : Byte := (str "0123456789abcdef").getD n 0

/-- The table `htmlSafeSet` on ASCII bytes: printable, and none of `"`, `&`, `<`, `>`,
backslash. -/
def htmlSafe (b : Byte) : Bool :=
  decide (0x20 ≤ b.val ∧ b.val ≠ 0x22 ∧ b.val ≠ 0x26 ∧ b.val ≠ 0x3C ∧ b.val ≠ 0x3E ∧
    b.val ≠ 0x5C)

/-- What `encodeState.string` writes for one ASCII byte (with `escapeHTML` set, as
`Marshal` does). Later releases of Go write the short escapes for U+0008 and U+000C, which
the decoder reads alike. -/
def escapeASCII (b : Byte) : Bytes :=
  if htmlSafe b then [b]
  else if b.val = 0x5C ∨ b.val = 0x22 then [0x5C, b]
  else if b.val = 0x0A then str "\\n"
  else if b.val = 0x0D then str "\\r"
  else if b.val = 0x09 then str "\\t"
  else str "\\u00" ++ [hex (b.val / 16), hex (b.val % 16)]

/-- The loop of `encodeState.string`: the body of the JSON string literal for `s`. Each
iteration consumes at least one byte; `fuel` bounds the iterations. -/
def stringLoop : Nat → Bytes → Bytes
  | 0, _ => []
  | _ + 1, [] => []
  | fuel + 1, b :: rest =>
    if b.val < 0x80 then escapeASCII b ++ stringLoop fuel rest
    else
      match utf8.DecodeRune (b :: rest) with
      | (c, size) =>
        if c = utf8.RuneError ∧ size = 1 then str "\\ufffd" ++ stringLoop fuel rest
        else if c = 0x2028 ∨ c = 0x2029 then
          str "\\u202" ++ [hex (c % 16)] ++ stringLoop fuel ((b :: rest).drop size)
        else (b :: rest).take size ++ stringLoop fuel ((b :: rest).drop size)

/-- The method `encodeState.string`: the quoted JSON string literal for the Go string `s`. -/
def encodeString (s : Bytes) : Bytes := [0x22] ++ stringLoop s.length s ++ [0x22]

/-- The function `Marshal` on a `Tuna`: the fields in declaration order under their `json`
tag names; `Marshal` reports no error for this struct. -/
def Marshal (t : Tuna) : Bytes :=
  str "\x7b\"id\":" ++ encodeString t.ID ++
  str ",\"temperature\":" ++ encodeString t.Temperature ++
  str ",\"humidity\":" ++ encodeString t.Humidity ++
  str ",\"location\":" ++ encodeString t.Location ++
  str ",\"timestamp\":" ++ encodeString t.Timestamp ++
  str ",\"agreement\":" ++ encodeString t.Agreement ++
  str ",\"status\":" ++ encodeString t.Status ++ str "\x7d"

/-- The value of one hexadecimal digit, as in `getu4`. -/
def unhex (c : Byte) : Option Nat :=
  if 0x30 ≤ c.val ∧ c.val ≤ 0x39 then some (c.val - 0x30)
  else if 0x61 ≤ c.val ∧ c.val ≤ 0x66 then some (c.val - 0x61 + 10)
  else if 0x41 ≤ c.val ∧ c.val ≤ 0x46 then some (c.val - 0x41 + 10)
  else none

/-- Four hexadecimal digits at the head of the input, and what follows them. -/
def hex4 : Bytes → Option (Nat × Bytes)
  | a :: b :: c :: d :: rest =>
    match unhex a, unhex b, unhex c, unhex d with
    | some x, some y, some z, some w => some (((x * 16 + y) * 16 + z) * 16 + w, rest)
    | _, _, _, _ => none
  | _ => none

/-- The function `getu4`: the code unit of an escape `\uXXXX` at the head of the input, and
what follows it. -/
def getu4 : Bytes → Option (Nat × Bytes)
  | bs :: u :: rest => if bs.val = 0x5C ∧ u.val = 0x75 then hex4 rest else none
  | _ => none

/-- The single-character escapes of `unquoteBytes`. -/
def unescape (e : Byte) : Option Byte :=
  if e.val = 0x22 ∨ e.val = 0x5C ∨ e.val = 0x2F then some e
  else if e.val = 0x62 then some 0x08
  else if e.val = 0x66 then some 0x0C
  else if e.val = 0x6E then some 0x0A
  else if e.val = 0x72 then some 0x0D
  else if e.val = 0x74 then some 0x09
  else none

/-- String literals as the scanner accepts them and `unquoteBytes` decodes them, in one
pass: the input starts right after the opening quote; the result is the decoded Go string
and the input after the closing quote. Control characters and unknown escapes are rejected;
a byte sequence that is not valid UTF-8 and an unpaired surrogate escape decode to U+FFFD.
Each iteration consumes at least one byte; `fuel` bounds the iterations. -/
def unquoteLoop : Nat → Bytes → Option (Bytes × Bytes)
  | 0, _ => none
  | _ + 1, [] => none
  | fuel + 1, b :: rest =>
    if b.val = 0x22 then some ([], rest)
    else if b.val = 0x5C then
      match rest with
      | [] => none
      | e :: rest1 =>
        if e.val = 0x75 then
          match hex4 rest1 with
          | none => none
          | some (rr, rest2) =>
            if utf16.IsSurrogate rr then
              let dec := utf16.DecodeRune rr ((getu4 rest2).map Prod.fst)
              if dec ≠ 0xFFFD then
                (unquoteLoop fuel (rest2.drop 6)).map
                  (fun r => (utf8.EncodeRune dec ++ r.1, r.2))
              else
                (unquoteLoop fuel rest2).map (fun r => (utf8.EncodeRune 0xFFFD ++ r.1, r.2))
            else (unquoteLoop fuel rest2).map (fun r => (utf8.EncodeRune rr ++ r.1, r.2))
        else
          match unescape e with
          | none => none
          | some c => (unquoteLoop fuel rest1).map (fun r => (c :: r.1, r.2))
    else if b.val < 0x20 then none
    else if b.val < 0x80 then (unquoteLoop fuel rest).map (fun r => (b :: r.1, r.2))
    else
      match utf8.DecodeRune (b :: rest) with
      | (rr, size) =>
        (unquoteLoop fuel ((b :: rest).drop size)).map
          (fun r => (utf8.EncodeRune rr ++ r.1, r.2))

/-- A string literal whose opening quote has been consumed. -/
def unquote (input : Bytes) : Option (Bytes × Bytes) := unquoteLoop input.length input

/-- A parsed JSON text. Strings are held decoded; a number keeps no value, since no field of
`Tuna` takes one. -/
inductive Value where
  | null : Value
  | bool : Bool → Value
  | number : Value
  | string : Bytes → Value
  | array : List Value → Value
  | object : List (Bytes × Value) → Value

/-- The function `isSpace` of the scanner. -/
def isSpace (b : Byte) : Bool :=
  decide (b.val = 0x20 ∨ b.val = 0x09 ∨ b.val = 0x0D ∨ b.val = 0x0A)

/-- The input without its leading white space. -/
def skipSpace : Bytes → Bytes
  | [] => []
  | b :: rest => if isSpace b then skipSpace rest else b :: rest

/-- A decimal digit. -/
def isDigit (b : Byte) : Bool := decide (0x30 ≤ b.val ∧ b.val ≤ 0x39)

/-- The input without its leading decimal digits. -/
def skipDigits : Bytes → Bytes
  | [] => []
  | b :: rest => if isDigit b then skipDigits rest else b :: rest

/-- The exponent part of a number, if there is one: the input after it. -/
def scanExponent : Bytes → Option Bytes
  | [] => some []
  | e :: rest =>
    if e.val = 0x65 ∨ e.val = 0x45 then
      match rest with
      | [] => none
      | sgn :: rest1 =>
        if sgn.val = 0x2B ∨ sgn.val = 0x2D then
          match rest1 with
          | [] => none
          | d :: rest2 => if isDigit d then some (skipDigits rest2) else none
        else if isDigit sgn then some (skipDigits rest1)
        else none
    else some (e :: rest)

/-- The fraction part of a number, if there is one, and the exponent part. -/
def scanFraction : Bytes → Option Bytes
  | [] => some []
  | dot :: rest =>
    if dot.val = 0x2E then
      match rest with
      | [] => none
      | d :: rest1 => if isDigit d then scanExponent (skipDigits rest1) else none
    else scanExponent (dot :: rest)

/-- The integer part of a number after its optional minus sign, then the rest of it. -/
def scanInteger : Bytes → Option Bytes
  | [] => none
  | d :: rest =>
    if d.val = 0x30 then scanFraction rest
    else if isDigit d then scanFraction (skipDigits rest)
    else none

/-- A number literal as the scanner accepts it: the input after it. -/
def scanNumber : Bytes → Option Bytes
  | [] => none
  | b :: rest => if b.val = 0x2D then scanInteger rest else scanInteger (b :: rest)

/-- The input after the given literal word, when the input starts with it. -/
def scanWord (word : Bytes) (input : Bytes) : Option Bytes :=
  if word.isPrefixOf input then some (input.drop word.length) else none

/-- The elements of an array after the first position: a value, then either a comma and
more elements, or the closing bracket. `value` parses one value. -/
def parseElements (value : Bytes → Option (Value × Bytes)) :
    Nat → Bytes → Option (List Value × Bytes)
  | 0, _ => none
  | fuel + 1, input =>
    match value input with
    | none => none
    | some (v, rest) =>
      match skipSpace rest with
      | [] => none
      | b :: rest1 =>
        if b.val = 0x2C then
          (parseElements value fuel rest1).map (fun r => (v :: r.1, r.2))
        else if b.val = 0x5D then some ([v], rest1)
        else none

/-- The members of an object: a string key, a colon, a value, then either a comma and more
members, or the closing brace. `value` parses one value. -/
def parseMembers (value : Bytes → Option (Value × Bytes)) :
    Nat → Bytes → Option (List (Bytes × Value) × Bytes)
  | 0, _ => none
  | fuel + 1, input =>
    match skipSpace input with
    | [] => none
    | q :: rest =>
      if q.val = 0x22 then
        match unquote rest with
        | none => none
        | some (key, rest1) =>
          match skipSpace rest1 with
          | [] => none
          | c :: rest2 =>
            if c.val = 0x3A then
              match value rest2 with
              | none => none
              | some (v, rest3) =>
                match skipSpace rest3 with
                | [] => none
                | b :: rest4 =>
                  if b.val = 0x2C then
                    (parseMembers value fuel rest4).map (fun r => ((key, v) :: r.1, r.2))
                  else if b.val = 0x7D then some ([(key, v)], rest4)
                  else none
            else none
      else none

/-- One JSON value with optional white space before it, and the input after it. `fuel`
bounds the nesting depth and the number of elements. -/
def parseValue : Nat → Bytes → Option (Value × Bytes)
  | 0, _ => none
  | fuel + 1, input =>
    match skipSpace input with
    | [] => none
    | b :: rest =>
      if b.val = 0x22 then (unquote rest).map (fun r => (Value.string r.1, r.2))
      else if b.val = 0x7B then
        match skipSpace rest with
        | [] => none
        | c :: rest1 =>
          if c.val = 0x7D then some (Value.object [], rest1)
          else (parseMembers (parseValue fuel) fuel (c :: rest1)).map
            (fun r => (Value.object r.1, r.2))
      else if b.val = 0x5B then
        match skipSpace rest with
        | [] => none
        | c :: rest1 =>
          if c.val = 0x5D then some (Value.array [], rest1)
          else (parseElements (parseValue fuel) fuel (c :: rest1)).map
            (fun r => (Value.array r.1, r.2))
      else if b.val = 0x74 then
        (scanWord (str "true") (b :: rest)).map (fun r => (Value.bool true, r))
      else if b.val = 0x66 then
        (scanWord (str "false") (b :: rest)).map (fun r => (Value.bool false, r))
      else if b.val = 0x6E then
        (scanWord (str "null") (b :: rest)).map (fun r => (Value.null, r))
      else (scanNumber (b :: rest)).map (fun r => (Value.number, r))

/-- A whole JSON text, as `checkValid` accepts it: one value, white space around it and
nothing else. The fuel `data.length + 1` is out of reach: a level of nesting and an element
each take up at least one byte of the data. -/
def parse (data : Bytes) : Option Value :=
  match parseValue (data.length + 1) data with
  | none => none
  | some (v, rest) => if (skipSpace rest).isEmpty then some v else none

/-- The function `Valid` of `encoding/json`: the data is a well-formed JSON text. -/
def Valid (data : Bytes) : Bool := (parse data).isSome

/-- The fields of `Tuna`, in declaration order. -/
inductive Field where
  | id | temperature | humidity | location | timestamp | agreement | status
  deriving DecidableEq

/-- The fields in declaration order, as `cachedTypeFields` lists them. -/
def Field.all : List Field :=
  [Field.id, Field.temperature, Field.humidity, Field.location, Field.timestamp,
    Field.agreement, Field.status]

/-- The `json` tag name of a field. -/
def Field.tag : Field → Bytes
  | Field.id => str "id"
  | Field.temperature => str "temperature"
  | Field.humidity => str "humidity"
  | Field.location => str "location"
  | Field.timestamp => str "timestamp"
  | Field.agreement => str "agreement"
  | Field.status => str "status"

/-- Reading a field of a `Tuna`. -/
def Field.get (t : Tuna) : Field → Bytes
  | Field.id => t.ID
  | Field.temperature => t.Temperature
  | Field.humidity => t.Humidity
  | Field.location => t.Location
  | Field.timestamp => t.Timestamp
  | Field.agreement => t.Agreement
  | Field.status => t.Status

/-- Assigning a field of a `Tuna`. -/
def Field.set (t : Tuna) (v : Bytes) : Field → Tuna
  | Field.id => { t with ID := v }
  | Field.temperature => { t with Temperature := v }
  | Field.humidity => { t with Humidity := v }
  | Field.location => { t with Location := v }
  | Field.timestamp => { t with Timestamp := v }
  | Field.agreement => { t with Agreement := v }
  | Field.status => { t with Status := v }

/-- The operation `b & caseMask`: an ASCII byte with bit 5 cleared. -/
def upper (b : Byte) : Nat := if (b.val / 32) % 2 = 1 then b.val - 32 else b.val

/-- The ASCII part of the fold functions: `sb`, a byte of the field name, matches the ASCII
byte `tb` when they are equal or are the same letter in different case. -/
def foldByte (sb tb : Byte) : Bool :=
  decide (sb = tb ∨ (0x41 ≤ upper sb ∧ upper sb ≤ 0x5A ∧ upper sb = upper tb))

/-- The function `equalFoldRight`, which `foldFunc` selects for a name with a letter `k` or
`s`: ASCII case folding, and moreover U+017F matches `s` and U+212A matches `k`. -/
def equalFoldRight : Bytes → Bytes → Bool
  | [], t => t.isEmpty
  | _ :: _, [] => false
  | sb :: s, tb :: t =>
    if tb.val < 0x80 then foldByte sb tb && equalFoldRight s t
    else
      match utf8.DecodeRune (tb :: t) with
      | (tr, size) =>
        if (upper sb = 0x53 ∧ tr = 0x17F) ∨ (upper sb = 0x4B ∧ tr = 0x212A) then
          equalFoldRight s ((tb :: t).drop size)
        else false

/-- The function `asciiEqualFold`, which `foldFunc` selects for a name of letters other than
`k` and `s`. -/
def asciiEqualFold : Bytes → Bytes → Bool
  | [], [] => true
  | sb :: s, tb :: t => foldByte sb tb && asciiEqualFold s t
  | _, _ => false

/-- The function `foldFunc` on the tag names of `Tuna`, which are all ASCII letters. -/
def Field.equalFold (f : Field) (key : Bytes) : Bool :=
  if f.tag.any (fun b => decide (upper b = 0x4B ∨ upper b = 0x53)) then
    equalFoldRight f.tag key
  else asciiEqualFold f.tag key

/-- The field that an object key selects in `decodeState.object`: the field of exactly that
name, otherwise the first field whose name matches under case folding. -/
def findField (key : Bytes) : Option Field :=
  match Field.all.find? (fun f => decide (f.tag = key)) with
  | some f => some f
  | none => Field.all.find? (fun f => f.equalFold key)

/-- The method `decodeState.object` on a `Tuna`: the members in order; a string value is
assigned to the field its key selects, `null` leaves the field as it is, any other value
for a field is a type error that is recorded while decoding goes on; a key that selects no
field is skipped. The result is the record and whether no error was recorded. -/
def decodeMembers : List (Bytes × Value) → Tuna → Tuna × Bool
  | [], t => (t, true)
  | (key, v) :: rest, t =>
    match findField key with
    | none => decodeMembers rest t
    | some f =>
      match v with
      | Value.string s => decodeMembers rest (f.set t s)
      | Value.null => decodeMembers rest t
      | _ => ((decodeMembers rest t).1, false)

/-- The function `Unmarshal` into a `Tuna` holding `t`: the record afterwards, and whether
the returned error is `nil`. Data that is not a JSON text is rejected before anything is
assigned; a JSON text that is not an object is a type error (`null` is accepted) and assigns
nothing. -/
def Unmarshal (data : Bytes) (t : Tuna) : Tuna × Bool :=
  match parse data with
  | none => (t, false)
  | some (Value.object members) => decodeMembers members t
  | some Value.null => (t, true)
  | some _ => (t, false)

end json

/-! ## The ledger stub -/

/-- The world state that the stub reads and writes, and the platform's verdict on each call.
`state` lists the entries, at most the first entry of a key counts. `putFails key value`
tells that the platform refuses `PutState (key, value)`, `getFails key` that it cannot serve
`GetState key`; `scanFails startKey endKey` is the error with which it refuses
`GetStateByRange`, and `nextFails i` the error with which the `i`-th call of `Next` on the
iterator fails. -/
structure Stub where
  state : List (Bytes × Bytes)
  putFails : Bytes → Bytes → Bool
  getFails : Bytes → Bool
  scanFails : Bytes → Bytes → Option Bytes
  nextFails : Nat → Option Bytes

/-- The value that the world state holds under a key, `none` when the key is absent. -/
def stored (stub : Stub) (key : Bytes) : Option Bytes := stub.state.lookup key

/-- Modelled from the spec: the platform's `GetState` (the shim is not part of the
repository). `get(key) -> bytes|absent`, and the call fails when the platform cannot serve
it: the result is the bytes, `none` (Go `nil`) when the key is absent, and whether the
returned error is not `nil`; a failed read returns no bytes. -/
def GetState (stub : Stub) (key : Bytes) : Option Bytes × Bool :=
  if stub.getFails key then (none, true) else (stored stub key, false)

/-- Modelled from the spec: the platform's `PutState` (the shim is not part of the
repository). `put(key, bytes) -> success|failure`, a full-value overwrite: `none` is the
returned error, and then nothing is written; otherwise the stub afterwards. -/
def PutState (stub : Stub) (key value : Bytes) : Option Stub :=
  if stub.putFails key value then none
  else some { stub with
    state := (key, value) :: stub.state.filter (fun e => decide (e.1 ≠ key)) }

/-- Comparison `a < b` of Go strings: lexicographic on bytes. -/
def keyLt : Bytes → Bytes → Bool
  | _, [] => false
  | [], _ :: _ => true
  | a :: as, b :: bs => if a.val < b.val then true else if b.val < a.val then false
      else keyLt as bs

/-- Entering an entry into a list that ascends by key; an entry of the same key is
replaced. -/
def insertEntry (e : Bytes × Bytes) : List (Bytes × Bytes) → List (Bytes × Bytes)
  | [] => [e]
  | x :: rest =>
    if keyLt e.1 x.1 then e :: x :: rest
    else if e.1 = x.1 then e :: rest
    else x :: insertEntry e rest

/-- The entries of a state in ascending key order, one for each key: the one that is
stored under the key. -/
def sortEntries : List (Bytes × Bytes) → List (Bytes × Bytes)
  | [] => []
  | e :: rest => insertEntry e (sortEntries rest)

/-- Membership of a key in the half-open interval `[startKey, endKey)`. -/
def inRange (startKey endKey key : Bytes) : Bool := !keyLt key startKey && keyLt key endKey

/-- The entries of the world state with a key in `[startKey, endKey)`, in ascending
lexicographic key order. -/
def scanEntries (stub : Stub) (startKey endKey : Bytes) : List (Bytes × Bytes) :=
  (sortEntries stub.state).filter (fun e => inRange startKey endKey e.1)

/-- What the successive calls of `Next` return while `HasNext` holds, from the `i`-th call
on: the entries in order, or the error of a call that fails. -/
def iterate (nextFails : Nat → Option Bytes) :
    Nat → List (Bytes × Bytes) → List (Except Bytes (Bytes × Bytes))
  | _, [] => []
  | i, e :: rest =>
    (match nextFails i with
      | some err => Except.error err
      | none => Except.ok e) :: iterate nextFails (i + 1) rest

/-- Modelled from the spec: the platform's `GetStateByRange` (the shim is not part of the
repository). `scan(startKey, endKey)`: a sequence of the entries in ascending lexicographic
key order, half-open interval `[startKey, endKey)`, and the call fails when the platform
cannot serve it: the result is the returned error, or the iterator, given by what its calls
of `Next` return. -/
def GetStateByRange (stub : Stub) (startKey endKey : Bytes) :
    Except Bytes (List (Except Bytes (Bytes × Bytes))) :=
  match stub.scanFails startKey endKey with
  | some err => Except.error err
  | none => Except.ok (iterate stub.nextFails 0 (scanEntries stub startKey endKey))

/-- The response of a handler: `shim.Success(payload)` with a payload that may be `nil`, or
`shim.Error(message)`. -/
inductive Response where
  | Success : Option Bytes → Response
  | Error : Bytes → Response
  deriving DecidableEq

/-! ## The chaincode -/

/-- The method `Init`. -/
def Init (stub : Stub) : Response × Stub := (Response.Success none, stub)

/-- The method `queryTuna`. The error of `GetState` is dropped, as in the Go code. -/
def queryTuna (stub : Stub) (args : List Bytes) : Response × Stub :=
  if args.length ≠ 1 then
    (Response.Error (str "Incorrect number of arguments. Expecting 1"), stub)
  else
    match (GetState stub (args.getD 0 [])).1 with
    | none => (Response.Error (str "Could not locate tuna"), stub)
    | some tunaAsBytes => (Response.Success (some tunaAsBytes), stub)

/-- The slice `tuna` of `initLedger`. -/
def initLedgerTuna : List Tuna :=
  [ { ID := str "923F", Location := str "67.0006, -70.5476", Timestamp := str "1504054225",
      Temperature := str "10", Humidity := str "24", Agreement := str "In", Status := [] },
    { ID := str "M83T", Location := str "91.2395, -49.4594", Timestamp := str "1504057825",
      Temperature := str "10", Humidity := str "24", Agreement := str "In", Status := [] },
    { ID := str "T012", Location := str "58.0148, 59.01391", Timestamp := str "1493517025",
      Temperature := str "10", Humidity := str "24", Agreement := str "In", Status := [] },
    { ID := str "P490", Location := str "-45.0945, 0.7949", Timestamp := str "1496105425",
      Temperature := str "10", Humidity := str "24", Agreement := str "Out", Status := [] },
    { ID := str "S439", Location := str "-107.6043, 19.5003", Timestamp := str "1493512301",
      Temperature := str "10", Humidity := str "24", Agreement := str "Out", Status := [] },
    { ID := str "J205", Location := str "-155.2304, -15.8723", Timestamp := str "1494117101",
      Temperature := str "10", Humidity := str "24", Agreement := str "In", Status := [] },
    { ID := str "S22L", Location := str "103.8842, 22.1277", Timestamp := str "1496104301",
      Temperature := str "10", Humidity := str "24", Agreement := str "In", Status := [] },
    { ID := str "EI89", Location := str "-132.3207, -34.0983", Timestamp := str "1485066691",
      Temperature := str "10", Humidity := str "24", Agreement := str "In", Status := [] },
    { ID := str "129R", Location := str "153.0054, 12.6429", Timestamp := str "1485153091",
      Temperature := str "10", Humidity := str "24", Agreement := str "Out", Status := [] },
    { ID := str "49W4", Location := str "51.9435, 8.2735", Timestamp := str "1487745091",
      Temperature := str "10", Humidity := str "24", Agreement := str "In", Status := [] } ]

/-- The loop `for i < len(tuna)` of `initLedger`, started at index `i` with `tuna[i:]`
left: each record is marshalled and put under the key `strconv.Itoa(i+1)`; the error that
`PutState` returns is dropped. -/
def initLedgerLoop : List Tuna → Nat → Stub → Stub
  | [], _, stub => stub
  | t :: rest, i, stub =>
    initLedgerLoop rest (i + 1) ((PutState stub (Itoa (i + 1)) (json.Marshal t)).getD stub)

/-- The method `initLedger`. -/
def initLedger (stub : Stub) : Response × Stub :=
  (Response.Success none, initLedgerLoop initLedgerTuna 0 stub)

/-- The method `recordTuna`. -/
def recordTuna (stub : Stub) (args : List Bytes) : Response × Stub :=
  if args.length ≠ 8 then
    (Response.Error (str "Incorrect number of arguments. Expecting 8"), stub)
  else
    let tuna : Tuna :=
      { ID := args.getD 1 [], Temperature := args.getD 2 [], Humidity := args.getD 3 [],
        Location := args.getD 4 [], Timestamp := args.getD 5 [], Agreement := args.getD 6 [],
        Status := args.getD 7 [] }
    let tunaAsBytes := json.Marshal tuna
    match PutState stub (args.getD 0 []) tunaAsBytes with
    | none =>
      (Response.Error (str "Failed to record tuna catch: " ++ args.getD 0 []), stub)
    | some stub1 => (Response.Success none, stub1)

/-- The loop `for resultsIterator.HasNext()` of `queryAllTuna` over what the calls of `Next`
return: `written` is `bArrayMemberAlreadyWritten`; the result is the error of a failed
`Next`, with which the method returns, or the buffer afterwards. -/
def queryAllTunaLoop :
    List (Except Bytes (Bytes × Bytes)) → Bool → Bytes → Except Bytes Bytes
  | [], _, buffer => Except.ok buffer
  | Except.error err :: _, _, _ => Except.error err
  | Except.ok (key, value) :: rest, written, buffer =>
    let buffer1 := if written then buffer ++ str "," else buffer
    let buffer2 := buffer1 ++ str "\x7b\"Key\":" ++ str "\"" ++ key ++ str "\"" ++
      str ", \"Record\":" ++ value ++ str "\x7d"
    queryAllTunaLoop rest true buffer2

/-- The method `queryAllTuna`. -/
def queryAllTuna (stub : Stub) : Response × Stub :=
  match GetStateByRange stub (str "0") (str "999") with
  | Except.error err => (Response.Error err, stub)
  | Except.ok resultsIterator =>
    match queryAllTunaLoop resultsIterator false (str "[") with
    | Except.error err => (Response.Error err, stub)
    | Except.ok buffer => (Response.Success (some (buffer ++ str "]")), stub)

/-- The method `changeStatus`. The errors of `GetState` and of `Unmarshal` are dropped, as in
the Go code. -/
def changeStatus (stub : Stub) (args : List Bytes) : Response × Stub :=
  if args.length ≠ 2 then
    (Response.Error (str "Incorrect number of arguments. Expecting 2"), stub)
  else
    match (GetState stub (args.getD 0 [])).1 with
    | none => (Response.Error (str "Could not locate tuna"), stub)
    | some tunaAsBytes =>
      let tuna := (json.Unmarshal tunaAsBytes Tuna.zero).1
      let tuna1 := { tuna with Status := args.getD 1 [] }
      match PutState stub (args.getD 0 []) (json.Marshal tuna1) with
      | none =>
        (Response.Error (str "Failed to change tuna status: " ++ args.getD 0 []), stub)
      | some stub1 => (Response.Success none, stub1)

/-- The method `Invoke`, with the function name and the arguments that
`GetFunctionAndParameters` returns. -/
def Invoke (stub : Stub) (function : Bytes) (args : List Bytes) : Response × Stub :=
  if function = str "queryTuna" then queryTuna stub args
  else if function = str "queryAllTuna" then queryAllTuna stub
  else if function = str "changeStatus" then changeStatus stub args
  else if function = str "initLedger" then initLedger stub
  else if function = str "recordTuna" then recordTuna stub args
  else (Response.Error (str "Invalid function name."), stub)

/-! ## Notions used in the statements -/

/-- The fields of a record are valid UTF-8. -/
def Tuna.Valid (t : Tuna) : Bool :=
  utf8.Valid t.ID && utf8.Valid t.Temperature && utf8.Valid t.Humidity &&
  utf8.Valid t.Location && utf8.Valid t.Timestamp && utf8.Valid t.Agreement &&
  utf8.Valid t.Status

/-- Every field of a record is a concatenation of encoded runes. -/
def json.TunaWF (t : Tuna) : Prop :=
  utf8.WellFormed t.ID ∧ utf8.WellFormed t.Temperature ∧ utf8.WellFormed t.Humidity ∧
  utf8.WellFormed t.Location ∧ utf8.WellFormed t.Timestamp ∧ utf8.WellFormed t.Agreement ∧
  utf8.WellFormed t.Status

/-- A key that can stand between double quotes as it is: valid UTF-8 without a double quote,
a backslash or a control byte. -/
def safeKey (key : Bytes) : Bool :=
  utf8.Valid key &&
    key.all (fun b => decide (0x20 ≤ b.val ∧ b.val ≠ 0x22 ∧ b.val ≠ 0x5C))

/-- The key of an element of the array that `queryAllTuna` returns: the string under `Key`
of an object with exactly the two members `Key` and `Record`, in this order. -/
def elementKey : json.Value → Option Bytes
  | json.Value.object [(k1, json.Value.string key), (k2, _)] =>
    if k1 = str "Key" ∧ k2 = str "Record" then some key else none
  | _ => none

/-- The keys of the elements of an array, when each element has one. -/
def elementKeys : List json.Value → Option (List Bytes)
  | [] => some []
  | v :: rest =>
    match elementKey v, elementKeys rest with
    | some key, some keys => some (key :: keys)
    | _, _ => none

/-- The keys of the elements of a payload, in order, when the payload is a well-formed JSON
array of such elements. -/
def payloadKeys (payload : Bytes) : Option (List Bytes) :=
  match json.parse payload with
  | some (json.Value.array elems) => elementKeys elems
  | _ => none

/-- One element of the array that `queryAllTuna` writes. -/
def arrayMember (e : Bytes × Bytes) : Bytes :=
  str "\x7b\"Key\":\"" ++ e.1 ++ str "\", \"Record\":" ++ e.2 ++ str "\x7d"

/-- The elements of the array that `queryAllTuna` writes, separated by commas. -/
def arrayMembers : List (Bytes × Bytes) → Bytes
  | [] => []
  | [e] => arrayMember e
  | e :: rest => arrayMember e ++ str "," ++ arrayMembers rest

/-- The record that a response carries: the payload of a success, decoded with
`json.Unmarshal` into an empty `Tuna` without error. -/
def decodedRecord (r : Response) : Option Tuna :=
  match r with
  | Response.Success (some payload) =>
    if (json.Unmarshal payload Tuna.zero).2 then some (json.Unmarshal payload Tuna.zero).1
    else none
  | _ => none

/-- A sequence of writes of marshalled records, the kind of write that the chaincode
performs, all of them successful: the stub afterwards, `none` when one of the writes
fails. -/
def applyWrites : List (Bytes × Tuna) → Stub → Option Stub
  | [], stub => some stub
  | (key, tuna) :: rest, stub =>
    match PutState stub key (json.Marshal tuna) with
    | none => none
    | some stub1 => applyWrites rest stub1

/-- The stub with an empty world state on a platform that serves every call. -/
def Stub.empty : Stub :=
  { state := [], putFails := fun _ _ => false, getFails := fun _ => false,
    scanFails := fun _ _ => none, nextFails := fun _ => none }

/-- Entries in strictly ascending key order. -/
def Ascending (l : List (Bytes × Bytes)) : Prop :=
  List.Pairwise (fun x y => keyLt x.1 y.1 = true) l

/-- The keys of the elements that a response carries, in order: those of the payload of a
success that is a well-formed JSON array of elements with the members `Key` and `Record`. -/
def responseKeys (r : Response) : Option (List Bytes) :=
  match r with
  | Response.Success (some payload) => payloadKeys payload
  | _ => none

/-! ## Lemmas -/

theorem byte_eq_iff (n : Nat) (b : Byte) : byte n = b ↔ n % 256 = b.val := by
  constructor
  · intro h; rw [← h]; rfl
  · intro h; exact Fin.ext h

theorem byte_val_eq (b : Byte) : byte b.val = b :=
  Fin.ext (Nat.mod_eq_of_lt b.isLt)

namespace utf8

theorem first_ascii (p0 : Byte) (h : p0.val < 0x80) : first p0 = (1, 0, 0) := by
  unfold first
  rw [if_pos h]

theorem first_cases (p0 : Byte) (h0 : 0x80 ≤ p0.val) :
    (first p0 = (0, 0, 0) ∧ (p0.val < 0xC2 ∨ 0xF5 ≤ p0.val)) ∨
    (first p0 = (2, 0x80, 0xBF) ∧ 0xC2 ≤ p0.val ∧ p0.val < 0xE0) ∨
    (∃ lo hi, first p0 = (3, lo, hi) ∧ 0xE0 ≤ p0.val ∧ p0.val < 0xF0 ∧
      (p0.val = 0xE0 → lo = 0xA0) ∧ (p0.val ≠ 0xE0 → lo = 0x80) ∧
      (p0.val = 0xED → hi = 0x9F) ∧ (p0.val ≠ 0xED → hi = 0xBF)) ∨
    (∃ lo hi, first p0 = (4, lo, hi) ∧ 0xF0 ≤ p0.val ∧ p0.val < 0xF5 ∧
      (p0.val = 0xF0 → lo = 0x90) ∧ (p0.val ≠ 0xF0 → lo = 0x80) ∧
      (p0.val = 0xF4 → hi = 0x8F) ∧ (p0.val ≠ 0xF4 → hi = 0xBF)) := by
  unfold first
  rw [if_neg (by omega)]
  by_cases c2 : p0.val < 0xC2
  · rw [if_pos c2]; exact Or.inl ⟨rfl, Or.inl c2⟩
  rw [if_neg c2]
  by_cases c3 : p0.val < 0xE0
  · rw [if_pos c3]; exact Or.inr (Or.inl ⟨rfl, by omega, by omega⟩)
  rw [if_neg c3]
  by_cases c4 : p0.val = 0xE0
  · rw [if_pos c4]
    exact Or.inr (Or.inr (Or.inl ⟨_, _, rfl, by omega, by omega, by omega, by omega,
      by omega, by omega⟩))
  rw [if_neg c4]
  by_cases c5 : p0.val < 0xED
  · rw [if_pos c5]
    exact Or.inr (Or.inr (Or.inl ⟨_, _, rfl, by omega, by omega, by omega, by omega,
      by omega, by omega⟩))
  rw [if_neg c5]
  by_cases c6 : p0.val = 0xED
  · rw [if_pos c6]
    exact Or.inr (Or.inr (Or.inl ⟨_, _, rfl, by omega, by omega, by omega, by omega,
      by omega, by omega⟩))
  rw [if_neg c6]
  by_cases c7 : p0.val < 0xF0
  · rw [if_pos c7]
    exact Or.inr (Or.inr (Or.inl ⟨_, _, rfl, by omega, by omega, by omega, by omega,
      by omega, by omega⟩))
  rw [if_neg c7]
  by_cases c8 : p0.val = 0xF0
  · rw [if_pos c8]
    exact Or.inr (Or.inr (Or.inr ⟨_, _, rfl, by omega, by omega, by omega, by omega,
      by omega, by omega⟩))
  rw [if_neg c8]
  by_cases c9 : p0.val < 0xF4
  · rw [if_pos c9]
    exact Or.inr (Or.inr (Or.inr ⟨_, _, rfl, by omega, by omega, by omega, by omega,
      by omega, by omega⟩))
  rw [if_neg c9]
  by_cases c10 : p0.val = 0xF4
  · rw [if_pos c10]
    exact Or.inr (Or.inr (Or.inr ⟨_, _, rfl, by omega, by omega, by omega, by omega,
      by omega, by omega⟩))
  rw [if_neg c10]
  exact Or.inl ⟨rfl, Or.inr (by omega)⟩

theorem decode_ascii (p0 : Byte) (tl : Bytes) (h : p0.val < 0x80) :
    DecodeRune (p0 :: tl) = (p0.val, 1) := by
  simp only [DecodeRune, first_ascii p0 h]
  rfl

theorem decode_two (p0 b1 : Byte) (tl : Bytes) (hf : first p0 = (2, 0x80, 0xBF))
    (hb : 0x80 ≤ b1.val ∧ b1.val ≤ 0xBF) :
    DecodeRune (p0 :: b1 :: tl) = ((p0.val % 32) * 64 + b1.val % 64, 2) := by
  simp only [DecodeRune, hf]
  rw [if_neg (by omega), if_neg (by omega), if_neg (by omega), if_pos (by omega)]

theorem decode_three (p0 b1 b2 : Byte) (tl : Bytes) (lo hi : Nat) (hf : first p0 = (3, lo, hi))
    (hb : lo ≤ b1.val ∧ b1.val ≤ hi) (hb2 : 0x80 ≤ b2.val ∧ b2.val ≤ 0xBF) :
    DecodeRune (p0 :: b1 :: b2 :: tl) =
      ((p0.val % 16) * 4096 + (b1.val % 64) * 64 + b2.val % 64, 3) := by
  simp only [DecodeRune, hf]
  rw [if_neg (by omega), if_neg (by omega), if_neg (by omega), if_neg (by omega),
    if_neg (by omega), if_pos (by omega)]

theorem decode_four (p0 b1 b2 b3 : Byte) (tl : Bytes) (lo hi : Nat)
    (hf : first p0 = (4, lo, hi))
    (hb : lo ≤ b1.val ∧ b1.val ≤ hi) (hb2 : 0x80 ≤ b2.val ∧ b2.val ≤ 0xBF)
    (hb3 : 0x80 ≤ b3.val ∧ b3.val ≤ 0xBF) :
    DecodeRune (p0 :: b1 :: b2 :: b3 :: tl) =
      ((p0.val % 8) * 262144 + (b1.val % 64) * 4096 + (b2.val % 64) * 64 + b3.val % 64, 4) := by
  simp only [DecodeRune, hf]
  rw [if_neg (by omega), if_neg (by omega), if_neg (by omega), if_neg (by omega),
    if_neg (by omega), if_neg (by omega), if_neg (by omega)]

/-- The possible shapes of an input with a non-ASCII leading byte. -/
theorem decode_cases (p0 : Byte) (rest : Bytes) (h0 : 0x80 ≤ p0.val) :
    DecodeRune (p0 :: rest) = (RuneError, 1) ∨
    (∃ b1 tl, rest = b1 :: tl ∧ first p0 = (2, 0x80, 0xBF) ∧ 0xC2 ≤ p0.val ∧ p0.val < 0xE0 ∧
      0x80 ≤ b1.val ∧ b1.val ≤ 0xBF) ∨
    (∃ b1 b2 tl lo hi, rest = b1 :: b2 :: tl ∧ first p0 = (3, lo, hi) ∧
      0xE0 ≤ p0.val ∧ p0.val < 0xF0 ∧
      (p0.val = 0xE0 → lo = 0xA0) ∧ (p0.val ≠ 0xE0 → lo = 0x80) ∧
      (p0.val = 0xED → hi = 0x9F) ∧ (p0.val ≠ 0xED → hi = 0xBF) ∧
      lo ≤ b1.val ∧ b1.val ≤ hi ∧ 0x80 ≤ b2.val ∧ b2.val ≤ 0xBF) ∨
    (∃ b1 b2 b3 tl lo hi, rest = b1 :: b2 :: b3 :: tl ∧ first p0 = (4, lo, hi) ∧
      0xF0 ≤ p0.val ∧ p0.val < 0xF5 ∧
      (p0.val = 0xF0 → lo = 0x90) ∧ (p0.val ≠ 0xF0 → lo = 0x80) ∧
      (p0.val = 0xF4 → hi = 0x8F) ∧ (p0.val ≠ 0xF4 → hi = 0xBF) ∧
      lo ≤ b1.val ∧ b1.val ≤ hi ∧ 0x80 ≤ b2.val ∧ b2.val ≤ 0xBF ∧
      0x80 ≤ b3.val ∧ b3.val ≤ 0xBF) := by
  rcases first_cases p0 h0 with ⟨hf, _⟩ | ⟨hf, h1, h2⟩ | ⟨lo, hi, hf, h1, h2, h3, h4, h5, h6⟩ |
      ⟨lo, hi, hf, h1, h2, h3, h4, h5, h6⟩
  · left; simp [DecodeRune, hf]
  · rcases rest with _ | ⟨b1, tl⟩
    · left; simp [DecodeRune, hf]
    · by_cases hb : 0x80 ≤ b1.val ∧ b1.val ≤ 0xBF
      · right; left; exact ⟨b1, tl, rfl, hf, h1, h2, hb.1, hb.2⟩
      · left
        simp only [DecodeRune, hf]
        rw [if_neg (by omega), if_neg (by omega), if_pos (by omega)]
  · rcases rest with _ | ⟨b1, _ | ⟨b2, tl⟩⟩
    · left; simp [DecodeRune, hf]
    · left
      simp only [DecodeRune, hf]
      split_ifs <;> first | rfl | (exfalso; omega)
    · by_cases hb : (lo ≤ b1.val ∧ b1.val ≤ hi) ∧ 0x80 ≤ b2.val ∧ b2.val ≤ 0xBF
      · right; right; left
        exact ⟨b1, b2, tl, lo, hi, rfl, hf, h1, h2, h3, h4, h5, h6, hb.1.1, hb.1.2, hb.2.1,
          hb.2.2⟩
      · left
        simp only [DecodeRune, hf]
        split_ifs <;> first | rfl | (exfalso; omega)
  · rcases rest with _ | ⟨b1, _ | ⟨b2, _ | ⟨b3, tl⟩⟩⟩
    · left; simp [DecodeRune, hf]
    · left
      simp only [DecodeRune, hf]
      split_ifs <;> first | rfl | (exfalso; omega)
    · left
      simp only [DecodeRune, hf]
      split_ifs <;> first | rfl | (exfalso; omega)
    · by_cases hb : (lo ≤ b1.val ∧ b1.val ≤ hi) ∧ (0x80 ≤ b2.val ∧ b2.val ≤ 0xBF) ∧
          0x80 ≤ b3.val ∧ b3.val ≤ 0xBF
      · right; right; right
        exact ⟨b1, b2, b3, tl, lo, hi, rfl, hf, h1, h2, h3, h4, h5, h6, hb.1.1, hb.1.2,
          hb.2.1.1, hb.2.1.2, hb.2.2.1, hb.2.2.2⟩
      · left
        simp only [DecodeRune, hf]
        split_ifs <;> first | rfl | (exfalso; omega)

theorem encodes_ascii (b : Byte) (h : b.val < 0x80) : Encodes [b] b.val := by
  refine ⟨by simp, fun tl => decode_ascii b tl h, ?_, ?_⟩
  · simp only [RuneError]; omega
  · unfold EncodeRune
    rw [if_pos (by omega), byte_val_eq]

theorem encodes_two (p0 b1 : Byte) (hf : first p0 = (2, 0x80, 0xBF))
    (h1 : 0xC2 ≤ p0.val) (h2 : p0.val < 0xE0) (hb : 0x80 ≤ b1.val ∧ b1.val ≤ 0xBF) :
    Encodes [p0, b1] ((p0.val % 32) * 64 + b1.val % 64) := by
  refine ⟨by simp, fun tl => decode_two p0 b1 tl hf hb, ?_, ?_⟩
  · simp
  · unfold EncodeRune
    rw [if_neg (by omega), if_pos (by omega)]
    simp only [List.cons.injEq, byte_eq_iff, and_true]
    omega

theorem encodes_three (p0 b1 b2 : Byte) (lo hi : Nat) (hf : first p0 = (3, lo, hi))
    (h1 : 0xE0 ≤ p0.val) (h2 : p0.val < 0xF0)
    (h3 : p0.val = 0xE0 → lo = 0xA0) (h4 : p0.val ≠ 0xE0 → lo = 0x80)
    (h5 : p0.val = 0xED → hi = 0x9F) (h6 : p0.val ≠ 0xED → hi = 0xBF)
    (hb : lo ≤ b1.val ∧ b1.val ≤ hi) (hb2 : 0x80 ≤ b2.val ∧ b2.val ≤ 0xBF) :
    Encodes [p0, b1, b2] ((p0.val % 16) * 4096 + (b1.val % 64) * 64 + b2.val % 64) := by
  refine ⟨by simp, fun tl => decode_three p0 b1 b2 tl lo hi hf hb hb2, ?_, ?_⟩
  · simp
  · unfold EncodeRune MaxRune
    rw [if_neg (by omega), if_neg (by omega), if_neg (by omega), if_pos (by omega)]
    simp only [encode3, List.cons.injEq, byte_eq_iff, and_true]
    omega

theorem encodes_four (p0 b1 b2 b3 : Byte) (lo hi : Nat) (hf : first p0 = (4, lo, hi))
    (h1 : 0xF0 ≤ p0.val) (h2 : p0.val < 0xF5)
    (h3 : p0.val = 0xF0 → lo = 0x90) (h4 : p0.val ≠ 0xF0 → lo = 0x80)
    (h5 : p0.val = 0xF4 → hi = 0x8F) (h6 : p0.val ≠ 0xF4 → hi = 0xBF)
    (hb : lo ≤ b1.val ∧ b1.val ≤ hi) (hb2 : 0x80 ≤ b2.val ∧ b2.val ≤ 0xBF)
    (hb3 : 0x80 ≤ b3.val ∧ b3.val ≤ 0xBF) :
    Encodes [p0, b1, b2, b3]
      ((p0.val % 8) * 262144 + (b1.val % 64) * 4096 + (b2.val % 64) * 64 + b3.val % 64) := by
  refine ⟨by simp, fun tl => decode_four p0 b1 b2 b3 tl lo hi hf hb hb2 hb3, ?_, ?_⟩
  · simp
  · unfold EncodeRune MaxRune
    rw [if_neg (by omega), if_neg (by omega), if_neg (by omega), if_neg (by omega)]
    simp only [List.cons.injEq, byte_eq_iff, and_true]
    omega

/-- What `DecodeRune` reads without error is an encoded rune at the head of the input. -/
theorem encodes_of_decode (p0 : Byte) (rest : Bytes) (c size : Nat)
    (h : DecodeRune (p0 :: rest) = (c, size)) (hv : ¬ (c = RuneError ∧ size = 1)) :
    ∃ pre tl, p0 :: rest = pre ++ tl ∧ pre.length = size ∧ Encodes pre c := by
  by_cases h0 : p0.val < 0x80
  · rw [decode_ascii p0 rest h0] at h
    simp only [Prod.mk.injEq] at h
    obtain ⟨rfl, rfl⟩ := h
    exact ⟨[p0], rest, rfl, rfl, encodes_ascii p0 h0⟩
  · rcases decode_cases p0 rest (by omega) with he | ⟨b1, tl, rfl, hf, h1, h2, hb⟩ |
        ⟨b1, b2, tl, lo, hi, rfl, hf, h1, h2, h3, h4, h5, h6, hb1, hb1', hb2⟩ |
        ⟨b1, b2, b3, tl, lo, hi, rfl, hf, h1, h2, h3, h4, h5, h6, hb1, hb1', hb2, hb2', hb3⟩
    · rw [he] at h
      simp only [Prod.mk.injEq] at h
      exact absurd ⟨h.1.symm, h.2.symm⟩ hv
    · rw [decode_two p0 b1 tl hf hb] at h
      simp only [Prod.mk.injEq] at h
      obtain ⟨rfl, rfl⟩ := h
      exact ⟨[p0, b1], tl, rfl, rfl, encodes_two p0 b1 hf h1 h2 hb⟩
    · rw [decode_three p0 b1 b2 tl lo hi hf ⟨hb1, hb1'⟩ hb2] at h
      simp only [Prod.mk.injEq] at h
      obtain ⟨rfl, rfl⟩ := h
      exact ⟨[p0, b1, b2], tl, rfl, rfl,
        encodes_three p0 b1 b2 lo hi hf h1 h2 h3 h4 h5 h6 ⟨hb1, hb1'⟩ hb2⟩
    · rw [decode_four p0 b1 b2 b3 tl lo hi hf ⟨hb1, hb1'⟩ ⟨hb2, hb2'⟩ hb3] at h
      simp only [Prod.mk.injEq] at h
      obtain ⟨rfl, rfl⟩ := h
      exact ⟨[p0, b1, b2, b3], tl, rfl, rfl,
        encodes_four p0 b1 b2 b3 lo hi hf h1 h2 h3 h4 h5 h6 ⟨hb1, hb1'⟩ ⟨hb2, hb2'⟩ hb3⟩


theorem first_two (p0 : Byte) (h1 : 0xC2 ≤ p0.val) (h2 : p0.val < 0xE0) :
    first p0 = (2, 0x80, 0xBF) := by
  unfold first
  rw [if_neg (by omega), if_neg (by omega), if_pos (by omega)]

theorem first_three (p0 : Byte) (h1 : 0xE0 ≤ p0.val) (h2 : p0.val < 0xF0) :
    ∃ lo hi, first p0 = (3, lo, hi) ∧
      (p0.val = 0xE0 → lo = 0xA0) ∧ (p0.val ≠ 0xE0 → lo = 0x80) ∧
      (p0.val = 0xED → hi = 0x9F) ∧ (p0.val ≠ 0xED → hi = 0xBF) := by
  rcases first_cases p0 (by omega) with ⟨_, hf⟩ | ⟨hf, h1, h2⟩ |
      ⟨lo, hi, hf, _, _, h3, h4, h5, h6⟩ | ⟨lo, hi, hf, h1, h2, h3, h4, h5, h6⟩
  · omega
  · omega
  · exact ⟨lo, hi, hf, h3, h4, h5, h6⟩
  · omega

theorem first_four (p0 : Byte) (h1 : 0xF0 ≤ p0.val) (h2 : p0.val < 0xF5) :
    ∃ lo hi, first p0 = (4, lo, hi) ∧
      (p0.val = 0xF0 → lo = 0x90) ∧ (p0.val ≠ 0xF0 → lo = 0x80) ∧
      (p0.val = 0xF4 → hi = 0x8F) ∧ (p0.val ≠ 0xF4 → hi = 0xBF) := by
  rcases first_cases p0 (by omega) with ⟨_, hf⟩ | ⟨hf, h1, h2⟩ |
      ⟨lo, hi, hf, _, _, h3, h4, h5, h6⟩ | ⟨lo, hi, hf, _, _, h3, h4, h5, h6⟩
  · omega
  · omega
  · omega
  · exact ⟨lo, hi, hf, h3, h4, h5, h6⟩

theorem encodes_encode3 (r : Nat) (h1 : 0x7FF < r) (h2 : r ≤ 0xFFFF)
    (h3 : ¬ (0xD800 ≤ r ∧ r ≤ 0xDFFF)) : Encodes (encode3 r) r := by
  have e0 : (byte (0xE0 + r / 4096)).val = 0xE0 + r / 4096 := by
    show (0xE0 + r / 4096) % 256 = _
    omega
  have e1 : (byte (0x80 + (r / 64) % 64)).val = 0x80 + (r / 64) % 64 := by
    show (0x80 + (r / 64) % 64) % 256 = _
    omega
  have e2 : (byte (0x80 + r % 64)).val = 0x80 + r % 64 := by
    show (0x80 + r % 64) % 256 = _
    omega
  obtain ⟨lo, hi, hf, g1, g2, g3, g4⟩ := first_three (byte (0xE0 + r / 4096))
    (by omega) (by omega)
  have key := encodes_three (byte (0xE0 + r / 4096)) (byte (0x80 + (r / 64) % 64))
    (byte (0x80 + r % 64)) lo hi hf (by omega) (by omega) g1 g2 g3 g4
    (by omega) (by omega)
  have hr : ((byte (0xE0 + r / 4096)).val % 16) * 4096 +
      ((byte (0x80 + (r / 64) % 64)).val % 64) * 64 + (byte (0x80 + r % 64)).val % 64 = r := by
    omega
  rw [hr] at key
  exact key

/-- The bytes that `EncodeRune` writes are the encoding of a rune. -/
theorem encodes_encodeRune (r : Nat) : Encodes (EncodeRune r) (scalar r) := by
  unfold EncodeRune scalar MaxRune
  by_cases c1 : r ≤ 0x7F
  · rw [if_pos c1, if_neg (by omega)]
    have e0 : (byte r).val = r := by
      show r % 256 = r
      omega
    have key := encodes_ascii (byte r) (by omega)
    rw [e0] at key
    exact key
  rw [if_neg c1]
  by_cases c2 : r ≤ 0x7FF
  · rw [if_pos c2, if_neg (by omega)]
    have e0 : (byte (0xC0 + r / 64)).val = 0xC0 + r / 64 := by
      show (0xC0 + r / 64) % 256 = _
      omega
    have e1 : (byte (0x80 + r % 64)).val = 0x80 + r % 64 := by
      show (0x80 + r % 64) % 256 = _
      omega
    have key := encodes_two (byte (0xC0 + r / 64)) (byte (0x80 + r % 64))
      (first_two _ (by omega) (by omega)) (by omega) (by omega) (by omega)
    have hr : ((byte (0xC0 + r / 64)).val % 32) * 64 + (byte (0x80 + r % 64)).val % 64 = r := by
      omega
    rw [hr] at key
    exact key
  rw [if_neg c2]
  by_cases c3 : 0x10FFFF < r ∨ (0xD800 ≤ r ∧ r ≤ 0xDFFF)
  · rw [if_pos c3, if_pos c3]
    exact encodes_encode3 RuneError (by decide) (by decide) (by decide)
  rw [if_neg c3, if_neg c3]
  by_cases c4 : r ≤ 0xFFFF
  · rw [if_pos c4]
    exact encodes_encode3 r (by omega) c4 (by omega)
  rw [if_neg c4]
  have e0 : (byte (0xF0 + r / 262144)).val = 0xF0 + r / 262144 := by
    show (0xF0 + r / 262144) % 256 = _
    omega
  have e1 : (byte (0x80 + (r / 4096) % 64)).val = 0x80 + (r / 4096) % 64 := by
    show (0x80 + (r / 4096) % 64) % 256 = _
    omega
  have e2 : (byte (0x80 + (r / 64) % 64)).val = 0x80 + (r / 64) % 64 := by
    show (0x80 + (r / 64) % 64) % 256 = _
    omega
  have e3 : (byte (0x80 + r % 64)).val = 0x80 + r % 64 := by
    show (0x80 + r % 64) % 256 = _
    omega
  obtain ⟨lo, hi, hf, g1, g2, g3, g4⟩ := first_four (byte (0xF0 + r / 262144))
    (by omega) (by omega)
  have key := encodes_four (byte (0xF0 + r / 262144)) (byte (0x80 + (r / 4096) % 64))
    (byte (0x80 + (r / 64) % 64)) (byte (0x80 + r % 64)) lo hi hf (by omega) (by omega)
    g1 g2 g3 g4 (by omega) (by omega) (by omega)
  have hr : ((byte (0xF0 + r / 262144)).val % 8) * 262144 +
      ((byte (0x80 + (r / 4096) % 64)).val % 64) * 4096 +
      ((byte (0x80 + (r / 64) % 64)).val % 64) * 64 + (byte (0x80 + r % 64)).val % 64 = r := by
    omega
  rw [hr] at key
  exact key

theorem Encodes.length_pos {pre : Bytes} {c : Nat} (h : Encodes pre c) : 0 < pre.length :=
  List.length_pos.mpr h.1

theorem wellFormed_append {a b : Bytes} (ha : WellFormed a) (hb : WellFormed b) :
    WellFormed (a ++ b) := by
  induction ha with
  | nil => simpa using hb
  | cons pre tl c hc _ ih =>
    rw [List.append_assoc]
    exact WellFormed.cons pre (tl ++ b) c hc ih

theorem wellFormed_encodeRune (r : Nat) : WellFormed (EncodeRune r) := by
  have h := WellFormed.cons _ [] _ (encodes_encodeRune r) WellFormed.nil
  simpa using h

theorem wellFormed_ascii (b : Byte) (h : b.val < 0x80) {tl : Bytes} (ht : WellFormed tl) :
    WellFormed (b :: tl) :=
  WellFormed.cons [b] tl _ (encodes_ascii b h) ht

theorem validLoop_of_wellFormed {p : Bytes} (h : WellFormed p) :
    ∀ fuel, p.length ≤ fuel → validLoop fuel p = true := by
  induction h with
  | nil =>
    intro fuel _
    cases fuel <;> rfl
  | cons pre tl c hc _ ih =>
    intro fuel hfuel
    obtain ⟨hne, hdec, herr, _⟩ := hc
    have hlen : 0 < pre.length := List.length_pos.mpr hne
    rw [List.length_append] at hfuel
    obtain ⟨fuel, rfl⟩ : ∃ f, fuel = f + 1 := ⟨fuel - 1, by omega⟩
    obtain ⟨p0, pre', rfl⟩ : ∃ p0 pre', pre = p0 :: pre' := by
      cases pre with
      | nil => exact absurd rfl hne
      | cons a l => exact ⟨a, l, rfl⟩
    have hd := hdec tl
    rw [List.cons_append] at hd ⊢
    simp only [validLoop, hd]
    rw [if_neg herr]
    have : List.drop (p0 :: pre').length (p0 :: (pre' ++ tl)) = tl := by
      rw [← List.cons_append]
      exact List.drop_left _ _
    rw [this]
    exact ih fuel (by omega)

theorem wellFormed_of_validLoop :
    ∀ fuel (p : Bytes), p.length ≤ fuel → validLoop fuel p = true → WellFormed p := by
  intro fuel
  induction fuel with
  | zero =>
    intro p hp _
    have : p = [] := List.length_eq_zero.mp (by omega)
    subst this
    exact WellFormed.nil
  | succ fuel ih =>
    intro p hp hv
    cases p with
    | nil => exact WellFormed.nil
    | cons p0 rest =>
      simp only [validLoop] at hv
      generalize hd : DecodeRune (p0 :: rest) = d at hv
      obtain ⟨c, size⟩ := d
      simp only at hv
      by_cases herr : c = RuneError ∧ size = 1
      · rw [if_pos herr] at hv
        exact absurd hv (by simp)
      · rw [if_neg herr] at hv
        obtain ⟨pre, tl, hsplit, hlen, henc⟩ := encodes_of_decode p0 rest c size hd herr
        have hpos := henc.length_pos
        rw [hsplit, ← hlen, List.drop_left] at hv
        rw [hsplit]
        refine WellFormed.cons pre tl c henc (ih tl ?_ hv)
        have := congrArg List.length hsplit
        simp only [List.length_cons, List.length_append] at this hp
        omega

/-- The executable check `Valid` decides `WellFormed`. -/
theorem valid_iff (p : Bytes) : Valid p = true ↔ WellFormed p :=
  ⟨wellFormed_of_validLoop p.length p (Nat.le_refl _),
    fun h => validLoop_of_wellFormed h p.length (Nat.le_refl _)⟩

end utf8
namespace json

theorem unhex_hex : ∀ n : Fin 16, unhex (hex n.val) = some n.val := by decide

theorem unhex_hex_nat (n : Nat) (h : n < 16) : unhex (hex n) = some n :=
  unhex_hex ⟨n, h⟩

theorem byte_of_val {b : Byte} {n : Nat} (hn : n < 256) (h : b.val = n) :
    b = (⟨n, hn⟩ : Byte) := Fin.ext h

theorem unquoteLoop_quote (g : Nat) (b : Byte) (X : Bytes) (h : b.val = 0x22) :
    unquoteLoop (g + 1) (b :: X) = some ([], X) := by
  simp only [unquoteLoop]
  rw [if_pos h]

theorem unquoteLoop_plain (g : Nat) (b : Byte) (X : Bytes) (h1 : b.val ≠ 0x22)
    (h2 : b.val ≠ 0x5C) (h3 : 0x20 ≤ b.val) (h4 : b.val < 0x80) :
    unquoteLoop (g + 1) (b :: X) = (unquoteLoop g X).map (fun r => (b :: r.1, r.2)) := by
  simp only [unquoteLoop]
  rw [if_neg h1, if_neg h2, if_neg (by omega), if_pos h4]

theorem unquoteLoop_escape (g : Nat) (b e c : Byte) (X : Bytes) (hb : b.val = 0x5C)
    (he : e.val ≠ 0x75) (hc : unescape e = some c) :
    unquoteLoop (g + 1) (b :: e :: X) = (unquoteLoop g X).map (fun r => (c :: r.1, r.2)) := by
  rw [unquoteLoop, if_neg (by omega), if_pos hb]
  simp only
  rw [if_neg he, hc]

theorem unquoteLoop_unicode (g : Nat) (b e : Byte) (rr : Nat) (X Y : Bytes)
    (hb : b.val = 0x5C) (he : e.val = 0x75) (hx : hex4 X = some (rr, Y))
    (hs : utf16.IsSurrogate rr = false) :
    unquoteLoop (g + 1) (b :: e :: X) =
      (unquoteLoop g Y).map (fun r => (utf8.EncodeRune rr ++ r.1, r.2)) := by
  rw [unquoteLoop, if_neg (by omega), if_pos hb]
  simp only
  rw [if_pos he, hx]
  simp only [hs]
  rfl

theorem unquoteLoop_raw (g : Nat) (b : Byte) (X : Bytes) (rr size : Nat) (hb : 0x80 ≤ b.val)
    (hd : utf8.DecodeRune (b :: X) = (rr, size)) :
    unquoteLoop (g + 1) (b :: X) =
      (unquoteLoop g ((b :: X).drop size)).map (fun r => (utf8.EncodeRune rr ++ r.1, r.2)) := by
  simp only [unquoteLoop]
  rw [if_neg (by omega), if_neg (by omega), if_neg (by omega), if_neg (by omega), hd]

/-- Decoding what the encoder writes for an ASCII byte gives the byte back. -/
theorem unquote_escapeASCII (b : Byte) (hb : b.val < 0x80) (g : Nat) (X : Bytes) :
    unquoteLoop (g + 1) (escapeASCII b ++ X) =
      (unquoteLoop g X).map (fun r => (b :: r.1, r.2)) := by
  unfold escapeASCII
  by_cases hs : htmlSafe b = true
  · rw [if_pos hs]
    simp only [htmlSafe, decide_eq_true_eq] at hs
    exact unquoteLoop_plain g b X (by omega) (by omega) (by omega) hb
  rw [if_neg hs]
  simp only [htmlSafe, decide_eq_true_eq] at hs
  by_cases h1 : b.val = 0x5C ∨ b.val = 0x22
  · rw [if_pos h1]
    have hu : unescape b = some b := by
      unfold unescape
      rw [if_pos (by omega)]
    exact unquoteLoop_escape g 0x5C b b X (by decide) (by omega) hu
  rw [if_neg h1]
  by_cases h2 : b.val = 0x0A
  · rw [if_pos h2]
    have hb' := byte_of_val (by decide) h2
    subst hb'
    exact unquoteLoop_escape g 0x5C 0x6E _ X (by decide) (by decide) (by decide)
  rw [if_neg h2]
  by_cases h3 : b.val = 0x0D
  · rw [if_pos h3]
    have hb' := byte_of_val (by decide) h3
    subst hb'
    exact unquoteLoop_escape g 0x5C 0x72 _ X (by decide) (by decide) (by decide)
  rw [if_neg h3]
  by_cases h4 : b.val = 0x09
  · rw [if_pos h4]
    have hb' := byte_of_val (by decide) h4
    subst hb'
    exact unquoteLoop_escape g 0x5C 0x74 _ X (by decide) (by decide) (by decide)
  rw [if_neg h4]
  have hx : hex4 (0x30 :: 0x30 :: hex (b.val / 16) :: hex (b.val % 16) :: X) =
      some (b.val, X) := by
    have h0 : unhex 0x30 = some 0 := by decide
    simp only [hex4, unhex_hex_nat (b.val / 16) (by omega),
      unhex_hex_nat (b.val % 16) (by omega), h0]
    simp only [Option.some.injEq, Prod.mk.injEq, and_true]
    omega
  have hsur : utf16.IsSurrogate b.val = false := by
    simp only [utf16.IsSurrogate, decide_eq_false_iff_not]
    omega
  have he : utf8.EncodeRune b.val = [b] := (utf8.encodes_ascii b hb).2.2.2
  have key := unquoteLoop_unicode g 0x5C 0x75 b.val _ X (by decide) (by decide) hx hsur
  rw [he] at key
  exact key

/-- One encoded rune of a string goes through the encoder and back through the decoder
unchanged, in one iteration of each. -/
theorem string_chunk {pre : Bytes} {c : Nat} (h : utf8.Encodes pre c) (fuel : Nat)
    (tl : Bytes) :
    ∃ e, stringLoop (fuel + 1) (pre ++ tl) = e ++ stringLoop fuel tl ∧
      ∀ g X, unquoteLoop (g + 1) (e ++ X) =
        (unquoteLoop g X).map (fun r => (pre ++ r.1, r.2)) := by
  obtain ⟨hne, hdec, herr, henc⟩ := h
  obtain ⟨b, pre', rfl⟩ : ∃ b pre', pre = b :: pre' := by
    cases pre with
    | nil => exact absurd rfl hne
    | cons a l => exact ⟨a, l, rfl⟩
  by_cases hb : b.val < 0x80
  · have h1 := hdec []
    rw [List.append_nil, utf8.decode_ascii b pre' hb] at h1
    simp only [Prod.mk.injEq, List.length_cons] at h1
    have hp : pre' = [] := List.length_eq_zero.mp (by omega)
    subst hp
    refine ⟨escapeASCII b, ?_, fun g X => unquote_escapeASCII b hb g X⟩
    rw [List.singleton_append, stringLoop, if_pos hb]
  · have hd := hdec tl
    have htake : List.take (b :: pre').length (b :: pre' ++ tl) = b :: pre' :=
      List.take_left _ _
    have hdrop : List.drop (b :: pre').length (b :: pre' ++ tl) = tl :=
      List.drop_left _ _
    by_cases hc : c = 0x2028 ∨ c = 0x2029
    · refine ⟨str "\\u202" ++ [hex (c % 16)], ?_, ?_⟩
      · rw [List.cons_append, stringLoop, if_neg hb, ← List.cons_append, hd]
        simp only
        rw [if_neg herr, if_pos hc, hdrop]
      · intro g X
        have hx : hex4 (0x32 :: 0x30 :: 0x32 :: hex (c % 16) :: X) = some (c, X) := by
          rcases hc with rfl | rfl <;> rfl
        have hsur : utf16.IsSurrogate c = false := by
          rcases hc with rfl | rfl <;> rfl
        have key := unquoteLoop_unicode g 0x5C 0x75 c _ X (by decide) (by decide) hx hsur
        rw [henc] at key
        exact key
    · refine ⟨b :: pre', ?_, ?_⟩
      · rw [List.cons_append, stringLoop, if_neg hb, ← List.cons_append, hd]
        simp only
        rw [if_neg herr, if_neg hc, htake, hdrop]
      · intro g X
        have key := unquoteLoop_raw g b (pre' ++ X) c (b :: pre').length (by omega) (hdec X)
        rw [henc] at key
        have hdrop' : List.drop (b :: pre').length (b :: (pre' ++ X)) = X := by
          rw [← List.cons_append]
          exact List.drop_left _ _
        rw [hdrop'] at key
        exact key

/-- The string decoder inverts the string encoder on valid UTF-8. -/
theorem unquoteLoop_stringLoop {s : Bytes} (h : utf8.WellFormed s) :
    ∀ (fuel g : Nat) (q : Byte) (rest : Bytes), q.val = 0x22 → s.length ≤ fuel →
      (stringLoop fuel s).length + 1 ≤ g →
      unquoteLoop g (stringLoop fuel s ++ q :: rest) = some (s, rest) := by
  induction h with
  | nil =>
    intro fuel g q rest hq _ hg
    have h0 : stringLoop fuel [] = [] := by cases fuel <;> rfl
    rw [h0] at hg ⊢
    obtain ⟨g, rfl⟩ : ∃ g', g = g' + 1 := ⟨g - 1, by simp at hg; omega⟩
    exact unquoteLoop_quote g q rest hq
  | cons pre tl c hc _ ih =>
    intro fuel g q rest hq hfuel hg
    have hpos := hc.length_pos
    rw [List.length_append] at hfuel
    obtain ⟨fuel, rfl⟩ : ∃ f, fuel = f + 1 := ⟨fuel - 1, by omega⟩
    obtain ⟨e, he1, he2⟩ := string_chunk hc fuel tl
    have he0 : 0 < e.length := by
      by_contra hcon
      have : e = [] := List.length_eq_zero.mp (by omega)
      subst this
      have h2 := he2 0 [0x22]
      rw [List.nil_append, unquoteLoop_quote 0 0x22 [] rfl] at h2
      simp only [unquoteLoop, Option.map_none'] at h2
      exact absurd h2 (by simp)
    rw [he1, List.length_append] at hg
    obtain ⟨g, rfl⟩ : ∃ g', g = g' + 1 := ⟨g - 1, by omega⟩
    rw [he1, List.append_assoc, he2, ih fuel g q rest hq (by omega) (by omega)]
    rfl

/-- The string decoder inverts `encodeString` on valid UTF-8, whatever follows the literal
in the input. -/
theorem unquote_encodeString (s rest : Bytes) (h : utf8.WellFormed s) :
    ∃ q body, encodeString s ++ rest = q :: body ∧ q.val = 0x22 ∧
      unquote body = some (s, rest) := by
  refine ⟨0x22, stringLoop s.length s ++ 0x22 :: rest, ?_, rfl, ?_⟩
  · simp [encodeString]
  · unfold unquote
    exact unquoteLoop_stringLoop h s.length _ 0x22 rest rfl (Nat.le_refl _)
      (by simp)

/-- Whatever the string decoder returns is valid UTF-8. -/
theorem wellFormed_unquoteLoop :
    ∀ (g : Nat) (input out rest : Bytes), unquoteLoop g input = some (out, rest) →
      utf8.WellFormed out := by
  intro g
  induction g with
  | zero =>
    intro input out rest h
    simp [unquoteLoop] at h
  | succ g ih =>
    intro input out rest h
    cases input with
    | nil => simp [unquoteLoop] at h
    | cons b X =>
      simp only [unquoteLoop] at h
      split_ifs at h with h1 h2 h3 h4
      · simp only [Option.some.injEq, Prod.mk.injEq] at h
        rw [← h.1]
        exact utf8.WellFormed.nil
      · cases X with
        | nil => simp at h
        | cons e X1 =>
          simp only at h
          split_ifs at h with h5
          · cases hx : hex4 X1 with
            | none => rw [hx] at h; simp at h
            | some p =>
              obtain ⟨rr, X2⟩ := p
              rw [hx] at h
              simp only at h
              split_ifs at h with h6 h7
              · simp only [Option.map_eq_some'] at h
                obtain ⟨r, hr, hout⟩ := h
                simp only [Prod.mk.injEq] at hout
                rw [← hout.1]
                exact utf8.wellFormed_append (utf8.wellFormed_encodeRune _)
                  (ih _ r.1 r.2 hr)
              · simp only [Option.map_eq_some'] at h
                obtain ⟨r, hr, hout⟩ := h
                simp only [Prod.mk.injEq] at hout
                rw [← hout.1]
                exact utf8.wellFormed_append (utf8.wellFormed_encodeRune _)
                  (ih _ r.1 r.2 hr)
              · simp only [Option.map_eq_some'] at h
                obtain ⟨r, hr, hout⟩ := h
                simp only [Prod.mk.injEq] at hout
                rw [← hout.1]
                exact utf8.wellFormed_append (utf8.wellFormed_encodeRune _)
                  (ih _ r.1 r.2 hr)
          · cases hu : unescape e with
            | none => rw [hu] at h; simp at h
            | some c =>
              rw [hu] at h
              simp only [Option.map_eq_some'] at h
              obtain ⟨r, hr, hout⟩ := h
              simp only [Prod.mk.injEq] at hout
              rw [← hout.1]
              have hc : c.val < 0x80 := by
                unfold unescape at hu
                split_ifs at hu with u1 u2 u3 u4 u5 u6 <;>
                  simp only [Option.some.injEq] at hu <;> subst hu <;>
                  omega
              exact utf8.wellFormed_ascii c hc (ih _ r.1 r.2 hr)
      · simp only [Option.map_eq_some'] at h
        obtain ⟨r, hr, hout⟩ := h
        simp only [Prod.mk.injEq] at hout
        rw [← hout.1]
        exact utf8.wellFormed_ascii b h4 (ih _ r.1 r.2 hr)
      · generalize hd : utf8.DecodeRune (b :: X) = d at h
        obtain ⟨rr, size⟩ := d
        simp only [Option.map_eq_some'] at h
        obtain ⟨r, hr, hout⟩ := h
        simp only [Prod.mk.injEq] at hout
        rw [← hout.1]
        exact utf8.wellFormed_append (utf8.wellFormed_encodeRune _) (ih _ r.1 r.2 hr)

theorem wellFormed_unquote (input out rest : Bytes) (h : unquote input = some (out, rest)) :
    utf8.WellFormed out :=
  wellFormed_unquoteLoop _ input out rest h


theorem skipSpace_cons (b : Byte) (rest : Bytes) (h : isSpace b = false) :
    skipSpace (b :: rest) = b :: rest := by
  simp only [skipSpace, h]
  rfl

theorem isSpace_of_val {b : Byte} (h : b.val = 0x22 ∨ b.val = 0x3A ∨ b.val = 0x2C ∨
    b.val = 0x7D ∨ b.val = 0x7B) : isSpace b = false := by
  simp only [isSpace, decide_eq_false_iff_not]
  omega

/-- A string literal for valid UTF-8 parses to that string, whatever follows it. -/
theorem parseValue_encodeString (fuel : Nat) (s rest : Bytes) (h : utf8.WellFormed s) :
    parseValue (fuel + 1) (encodeString s ++ rest) = some (Value.string s, rest) := by
  obtain ⟨q, body, hq, hqv, hu⟩ := unquote_encodeString s rest h
  rw [hq]
  simp only [parseValue]
  rw [skipSpace_cons q body (isSpace_of_val (Or.inl hqv))]
  simp only
  rw [if_pos hqv, hu]
  rfl

/-- An object that starts with a string key is parsed member by member. -/
theorem parseValue_object (fuel : Nat) (b c : Byte) (rest : Bytes) (hb : b.val = 0x7B)
    (hc : c.val = 0x22) :
    parseValue (fuel + 1) (b :: c :: rest) =
      (parseMembers (parseValue fuel) fuel (c :: rest)).map
        (fun r => (Value.object r.1, r.2)) := by
  simp only [parseValue]
  rw [skipSpace_cons b _ (isSpace_of_val (by omega))]
  simp only
  rw [if_neg (by omega), if_pos hb, skipSpace_cons c _ (isSpace_of_val (by omega))]
  simp only
  rw [if_neg (by omega)]

/-- One member of an object whose key is a string literal of valid UTF-8, and what follows
it. -/
theorem parseMembers_member (value : Bytes → Option (Value × Bytes)) (fuel : Nat)
    (key vlit rest : Bytes) (v : Value) (colon sep : Byte) (hk : utf8.WellFormed key)
    (hcolon : colon.val = 0x3A) (hsep : sep.val = 0x2C ∨ sep.val = 0x7D)
    (hv : value (vlit ++ sep :: rest) = some (v, sep :: rest)) :
    parseMembers value (fuel + 1)
        (encodeString key ++ colon :: (vlit ++ sep :: rest)) =
      if sep.val = 0x2C then
        (parseMembers value fuel rest).map (fun r => ((key, v) :: r.1, r.2))
      else some ([(key, v)], rest) := by
  obtain ⟨q, body, hq, hqv, hu⟩ :=
    unquote_encodeString key (colon :: (vlit ++ sep :: rest)) hk
  rw [hq]
  simp only [parseMembers]
  rw [skipSpace_cons q body (isSpace_of_val (Or.inl hqv))]
  simp only
  rw [if_pos hqv, hu]
  simp only
  rw [skipSpace_cons colon _ (isSpace_of_val (Or.inr (Or.inl hcolon)))]
  simp only
  rw [if_pos hcolon, hv]
  simp only
  rw [skipSpace_cons sep _ (isSpace_of_val (by omega))]
  simp only
  by_cases h1 : sep.val = 0x2C
  · rw [if_pos h1, if_pos h1]
  · rw [if_neg h1, if_neg h1, if_pos (by omega)]

theorem parseMembers_more (value : Bytes → Option (Value × Bytes)) (fuel : Nat)
    (key vlit rest : Bytes) (v : Value) (hk : utf8.WellFormed key)
    (hv : ∀ input, value (vlit ++ input) = some (v, input)) :
    parseMembers value (fuel + 1)
        (encodeString key ++ (0x3A : Byte) :: (vlit ++ (0x2C : Byte) :: rest)) =
      (parseMembers value fuel rest).map (fun r => ((key, v) :: r.1, r.2)) := by
  rw [parseMembers_member value fuel key vlit rest v 0x3A 0x2C hk rfl (Or.inl rfl) (hv _)]
  exact if_pos rfl

theorem parseMembers_last (value : Bytes → Option (Value × Bytes)) (fuel : Nat)
    (key vlit rest : Bytes) (v : Value) (hk : utf8.WellFormed key)
    (hv : ∀ input, value (vlit ++ input) = some (v, input)) :
    parseMembers value (fuel + 1)
        (encodeString key ++ (0x3A : Byte) :: (vlit ++ (0x7D : Byte) :: rest)) =
      some ([(key, v)], rest) := by
  rw [parseMembers_member value fuel key vlit rest v 0x3A 0x7D hk rfl (Or.inr rfl) (hv _)]
  exact if_neg (by decide)

theorem marshal_eq (t : Tuna) :
    Marshal t = (0x7B : Byte) ::
      (encodeString (str "id") ++ (0x3A : Byte) :: (encodeString t.ID ++ (0x2C : Byte) ::
      (encodeString (str "temperature") ++ (0x3A : Byte) ::
        (encodeString t.Temperature ++ (0x2C : Byte) ::
      (encodeString (str "humidity") ++ (0x3A : Byte) ::
        (encodeString t.Humidity ++ (0x2C : Byte) ::
      (encodeString (str "location") ++ (0x3A : Byte) ::
        (encodeString t.Location ++ (0x2C : Byte) ::
      (encodeString (str "timestamp") ++ (0x3A : Byte) ::
        (encodeString t.Timestamp ++ (0x2C : Byte) ::
      (encodeString (str "agreement") ++ (0x3A : Byte) ::
        (encodeString t.Agreement ++ (0x2C : Byte) ::
      (encodeString (str "status") ++ (0x3A : Byte) ::
        (encodeString t.Status ++ [(0x7D : Byte)])))))))))))))) := by
  have h1 : str "\x7b\"id\":" = (0x7B : Byte) :: (encodeString (str "id") ++ [(0x3A : Byte)]) := by
    decide
  have h2 : str ",\"temperature\":" =
      (0x2C : Byte) :: (encodeString (str "temperature") ++ [(0x3A : Byte)]) := by decide
  have h3 : str ",\"humidity\":" =
      (0x2C : Byte) :: (encodeString (str "humidity") ++ [(0x3A : Byte)]) := by decide
  have h4 : str ",\"location\":" =
      (0x2C : Byte) :: (encodeString (str "location") ++ [(0x3A : Byte)]) := by decide
  have h5 : str ",\"timestamp\":" =
      (0x2C : Byte) :: (encodeString (str "timestamp") ++ [(0x3A : Byte)]) := by decide
  have h6 : str ",\"agreement\":" =
      (0x2C : Byte) :: (encodeString (str "agreement") ++ [(0x3A : Byte)]) := by decide
  have h7 : str ",\"status\":" =
      (0x2C : Byte) :: (encodeString (str "status") ++ [(0x3A : Byte)]) := by decide
  have h8 : str "\x7d" = [(0x7D : Byte)] := by decide
  unfold Marshal
  rw [h1, h2, h3, h4, h5, h6, h7, h8]
  simp only [List.cons_append, List.append_assoc, List.nil_append]

theorem wellFormed_of_valid {s : Bytes} (h : utf8.Valid s = true) : utf8.WellFormed s :=
  (utf8.valid_iff s).mp h

/-- The JSON text that `Marshal` writes parses to the object of its seven members,
whatever follows it; `o1` to `o7` are the strings that the seven literals decode to. -/
theorem parseValue_marshal (t : Tuna) (o1 o2 o3 o4 o5 o6 o7 : Bytes)
    (h1 : ∀ fuel rest, parseValue (fuel + 1) (encodeString t.ID ++ rest)
      = some (Value.string o1, rest))
    (h2 : ∀ fuel rest, parseValue (fuel + 1) (encodeString t.Temperature ++ rest)
      = some (Value.string o2, rest))
    (h3 : ∀ fuel rest, parseValue (fuel + 1) (encodeString t.Humidity ++ rest)
      = some (Value.string o3, rest))
    (h4 : ∀ fuel rest, parseValue (fuel + 1) (encodeString t.Location ++ rest)
      = some (Value.string o4, rest))
    (h5 : ∀ fuel rest, parseValue (fuel + 1) (encodeString t.Timestamp ++ rest)
      = some (Value.string o5, rest))
    (h6 : ∀ fuel rest, parseValue (fuel + 1) (encodeString t.Agreement ++ rest)
      = some (Value.string o6, rest))
    (h7 : ∀ fuel rest, parseValue (fuel + 1) (encodeString t.Status ++ rest)
      = some (Value.string o7, rest))
    (fuel : Nat) (rest : Bytes) :
    parseValue (fuel + 9) (Marshal t ++ rest) = some (Value.object
      [(str "id", Value.string o1), (str "temperature", Value.string o2),
       (str "humidity", Value.string o3), (str "location", Value.string o4),
       (str "timestamp", Value.string o5), (str "agreement", Value.string o6),
       (str "status", Value.string o7)], rest) := by
  have k1 : utf8.WellFormed (str "id") := wellFormed_of_valid (by decide)
  have k2 : utf8.WellFormed (str "temperature") := wellFormed_of_valid (by decide)
  have k3 : utf8.WellFormed (str "humidity") := wellFormed_of_valid (by decide)
  have k4 : utf8.WellFormed (str "location") := wellFormed_of_valid (by decide)
  have k5 : utf8.WellFormed (str "timestamp") := wellFormed_of_valid (by decide)
  have k6 : utf8.WellFormed (str "agreement") := wellFormed_of_valid (by decide)
  have k7 : utf8.WellFormed (str "status") := wellFormed_of_valid (by decide)
  obtain ⟨body, hbody⟩ : ∃ body, encodeString (str "id") = (0x22 : Byte) :: body :=
    ⟨stringLoop (str "id").length (str "id") ++ [0x22], by simp [encodeString]⟩
  rw [marshal_eq]
  simp only [List.cons_append, List.append_assoc, List.nil_append]
  rw [hbody, List.cons_append, parseValue_object _ _ _ _ rfl rfl, ← List.cons_append, ← hbody]
  rw [parseMembers_more _ _ _ _ _ _ k1 (fun i => h1 _ i),
    parseMembers_more _ _ _ _ _ _ k2 (fun i => h2 _ i),
    parseMembers_more _ _ _ _ _ _ k3 (fun i => h3 _ i),
    parseMembers_more _ _ _ _ _ _ k4 (fun i => h4 _ i),
    parseMembers_more _ _ _ _ _ _ k5 (fun i => h5 _ i),
    parseMembers_more _ _ _ _ _ _ k6 (fun i => h6 _ i),
    parseMembers_last _ _ _ _ _ _ k7 (fun i => h7 _ i)]
  rfl

/-- The JSON text that `Marshal` writes for a record of valid UTF-8 fields parses to the
object of its seven members. -/
theorem parse_marshal (t : Tuna) (h : TunaWF t) :
    parse (Marshal t) = some (Value.object
      [(str "id", Value.string t.ID), (str "temperature", Value.string t.Temperature),
       (str "humidity", Value.string t.Humidity), (str "location", Value.string t.Location),
       (str "timestamp", Value.string t.Timestamp),
       (str "agreement", Value.string t.Agreement), (str "status", Value.string t.Status)]) := by
  obtain ⟨w1, w2, w3, w4, w5, w6, w7⟩ := h
  obtain ⟨n, hn⟩ : ∃ n, (Marshal t).length + 1 = n + 9 := by
    refine ⟨(Marshal t).length - 8, ?_⟩
    have : 8 ≤ (Marshal t).length := by
      rw [marshal_eq]
      simp only [List.length_cons, List.length_append]
      omega
    omega
  have key := parseValue_marshal t _ _ _ _ _ _ _
    (fun f r => parseValue_encodeString f _ r w1) (fun f r => parseValue_encodeString f _ r w2)
    (fun f r => parseValue_encodeString f _ r w3) (fun f r => parseValue_encodeString f _ r w4)
    (fun f r => parseValue_encodeString f _ r w5) (fun f r => parseValue_encodeString f _ r w6)
    (fun f r => parseValue_encodeString f _ r w7) n []
  rw [List.append_nil] at key
  unfold parse
  rw [hn, key]
  rfl

/-- Unmarshalling what `Marshal` wrote for a record of valid UTF-8 fields gives the record
back, without error, whatever the target held. -/
theorem unmarshal_marshal (t t0 : Tuna) (h : TunaWF t) :
    Unmarshal (Marshal t) t0 = (t, true) := by
  have f1 : findField (str "id") = some Field.id := by decide
  have f2 : findField (str "temperature") = some Field.temperature := by decide
  have f3 : findField (str "humidity") = some Field.humidity := by decide
  have f4 : findField (str "location") = some Field.location := by decide
  have f5 : findField (str "timestamp") = some Field.timestamp := by decide
  have f6 : findField (str "agreement") = some Field.agreement := by decide
  have f7 : findField (str "status") = some Field.status := by decide
  unfold Unmarshal
  rw [parse_marshal t h]
  simp only [decodeMembers, f1, f2, f3, f4, f5, f6, f7, Field.set]


/-- A string that the parser returns as a value is valid UTF-8. -/
theorem parseValue_string_wf (fuel : Nat) (input s rest : Bytes)
    (h : parseValue fuel input = some (Value.string s, rest)) : utf8.WellFormed s := by
  cases fuel with
  | zero => simp [parseValue] at h
  | succ fuel =>
    simp only [parseValue] at h
    generalize skipSpace input = l at h
    cases l with
    | nil => simp at h
    | cons b X =>
      simp only at h
      split_ifs at h
      · simp only [Option.map_eq_some', Prod.mk.injEq, Value.string.injEq] at h
        obtain ⟨r, hr, h1, _⟩ := h
        rw [← h1]
        exact wellFormed_unquote X r.1 r.2 hr
      · generalize skipSpace X = l2 at h
        cases l2 with
        | nil => simp at h
        | cons c Y =>
          simp only at h
          split_ifs at h <;> simp at h
      · generalize skipSpace X = l2 at h
        cases l2 with
        | nil => simp at h
        | cons c Y =>
          simp only at h
          split_ifs at h <;> simp at h
      · simp at h
      · simp at h
      · simp at h
      · simp at h

/-- The string values among the members that the parser returns are valid UTF-8. -/
theorem parseMembers_wf (value : Bytes → Option (Value × Bytes))
    (hv : ∀ input s rest, value input = some (Value.string s, rest) → utf8.WellFormed s) :
    ∀ (fuel : Nat) (input : Bytes) (ms : List (Bytes × Value)) (rest : Bytes),
      parseMembers value fuel input = some (ms, rest) →
      ∀ key s, (key, Value.string s) ∈ ms → utf8.WellFormed s := by
  intro fuel
  induction fuel with
  | zero =>
    intro input ms rest h
    simp [parseMembers] at h
  | succ fuel ih =>
    intro input ms rest h key s hmem
    simp only [parseMembers] at h
    generalize skipSpace input = l at h
    cases l with
    | nil => simp at h
    | cons q X =>
      simp only at h
      split_ifs at h
      cases hu : unquote X with
      | none => rw [hu] at h; simp at h
      | some p =>
        obtain ⟨k, X1⟩ := p
        rw [hu] at h
        simp only at h
        generalize skipSpace X1 = l1 at h
        cases l1 with
        | nil => simp at h
        | cons c X2 =>
          simp only at h
          split_ifs at h
          cases hval : value X2 with
          | none => rw [hval] at h; simp at h
          | some p2 =>
            obtain ⟨v, X3⟩ := p2
            rw [hval] at h
            simp only at h
            generalize skipSpace X3 = l3 at h
            cases l3 with
            | nil => simp at h
            | cons b X4 =>
              simp only at h
              split_ifs at h
              · simp only [Option.map_eq_some', Prod.mk.injEq] at h
                obtain ⟨r, hr, h1, _⟩ := h
                rw [← h1] at hmem
                rcases List.mem_cons.mp hmem with heq | hin
                · simp only [Prod.mk.injEq] at heq
                  rw [← heq.2] at hval
                  exact hv X2 s X3 hval
                · exact ih X4 r.1 r.2 hr key s hin
              · simp only [Option.some.injEq, Prod.mk.injEq] at h
                rw [← h.1] at hmem
                simp only [List.mem_singleton, Prod.mk.injEq] at hmem
                rw [← hmem.2] at hval
                exact hv X2 s X3 hval

/-- The string values among the members of an object that the parser returns are valid
UTF-8. -/
theorem parseValue_object_wf (fuel : Nat) (input rest : Bytes) (ms : List (Bytes × Value))
    (h : parseValue fuel input = some (Value.object ms, rest)) :
    ∀ key s, (key, Value.string s) ∈ ms → utf8.WellFormed s := by
  cases fuel with
  | zero => simp [parseValue] at h
  | succ fuel =>
    simp only [parseValue] at h
    generalize skipSpace input = l at h
    cases l with
    | nil => simp at h
    | cons b X =>
      simp only at h
      split_ifs at h
      · simp at h
      · generalize skipSpace X = l2 at h
        cases l2 with
        | nil => simp at h
        | cons c Y =>
          simp only at h
          split_ifs at h
          · simp only [Option.some.injEq, Prod.mk.injEq, Value.object.injEq] at h
            rw [← h.1]
            intro key s hmem
            simp at hmem
          · simp only [Option.map_eq_some', Prod.mk.injEq, Value.object.injEq] at h
            obtain ⟨r, hr, h1, _⟩ := h
            rw [← h1]
            exact parseMembers_wf (parseValue fuel)
              (fun i s r hh => parseValue_string_wf fuel i s r hh) fuel (c :: Y) r.1 r.2 hr
      · generalize skipSpace X = l2 at h
        cases l2 with
        | nil => simp at h
        | cons c Y =>
          simp only at h
          split_ifs at h <;> simp at h
      · simp at h
      · simp at h
      · simp at h
      · simp at h

theorem tunaWF_set (t : Tuna) (f : Field) (s : Bytes) (ht : TunaWF t)
    (hs : utf8.WellFormed s) : TunaWF (f.set t s) := by
  obtain ⟨w1, w2, w3, w4, w5, w6, w7⟩ := ht
  cases f
  · exact ⟨hs, w2, w3, w4, w5, w6, w7⟩
  · exact ⟨w1, hs, w3, w4, w5, w6, w7⟩
  · exact ⟨w1, w2, hs, w4, w5, w6, w7⟩
  · exact ⟨w1, w2, w3, hs, w5, w6, w7⟩
  · exact ⟨w1, w2, w3, w4, hs, w6, w7⟩
  · exact ⟨w1, w2, w3, w4, w5, hs, w7⟩
  · exact ⟨w1, w2, w3, w4, w5, w6, hs⟩

theorem decodeMembers_wf :
    ∀ (ms : List (Bytes × Value)) (t : Tuna),
      (∀ key s, (key, Value.string s) ∈ ms → utf8.WellFormed s) → TunaWF t →
      TunaWF (decodeMembers ms t).1 := by
  intro ms
  induction ms with
  | nil =>
    intro t _ ht
    exact ht
  | cons m rest ih =>
    intro t hms ht
    obtain ⟨key, v⟩ := m
    have hrest : ∀ key s, (key, Value.string s) ∈ rest → utf8.WellFormed s :=
      fun k s hmem => hms k s (List.mem_cons_of_mem _ hmem)
    simp only [decodeMembers]
    cases findField key with
    | none => exact ih t hrest ht
    | some f =>
      cases v with
      | string s =>
        exact ih _ hrest (tunaWF_set t f s ht (hms key s (List.mem_cons_self _ _)))
      | null => exact ih t hrest ht
      | bool _ => exact ih t hrest ht
      | number => exact ih t hrest ht
      | array _ => exact ih t hrest ht
      | object _ => exact ih t hrest ht

/-- Whatever `Unmarshal` leaves in a record of valid UTF-8 fields is again a record of valid
UTF-8 fields, for any data at all. -/
theorem unmarshal_wf (data : Bytes) (t : Tuna) (ht : TunaWF t) :
    TunaWF (Unmarshal data t).1 := by
  unfold Unmarshal
  cases hp : parse data with
  | none => exact ht
  | some v =>
    cases v with
    | object ms =>
      simp only
      refine decodeMembers_wf ms t ?_ ht
      unfold parse at hp
      cases hv : parseValue (data.length + 1) data with
      | none => rw [hv] at hp; simp at hp
      | some p =>
        obtain ⟨v, rest⟩ := p
        rw [hv] at hp
        simp only at hp
        split_ifs at hp
        simp only [Option.some.injEq] at hp
        subst hp
        exact parseValue_object_wf _ _ _ _ hv
    | null => exact ht
    | bool _ => exact ht
    | number => exact ht
    | string _ => exact ht
    | array _ => exact ht

theorem tunaWF_zero : TunaWF Tuna.zero :=
  ⟨utf8.WellFormed.nil, utf8.WellFormed.nil, utf8.WellFormed.nil, utf8.WellFormed.nil,
    utf8.WellFormed.nil, utf8.WellFormed.nil, utf8.WellFormed.nil⟩

theorem tunaWF_of_valid (t : Tuna) (h : t.Valid = true) : TunaWF t := by
  simp only [Tuna.Valid, Bool.and_eq_true] at h
  obtain ⟨⟨⟨⟨⟨⟨h1, h2⟩, h3⟩, h4⟩, h5⟩, h6⟩, h7⟩ := h
  exact ⟨wellFormed_of_valid h1, wellFormed_of_valid h2, wellFormed_of_valid h3,
    wellFormed_of_valid h4, wellFormed_of_valid h5, wellFormed_of_valid h6,
    wellFormed_of_valid h7⟩


/-! ### Strings that are not valid UTF-8, keys between quotes, and arrays -/

theorem nonempty_of_unquote_step (e out : Bytes)
    (h : ∀ g X, unquoteLoop (g + 1) (e ++ X) =
      (unquoteLoop g X).map (fun r => (out ++ r.1, r.2))) : 0 < e.length := by
  by_contra hcon
  have he : e = [] := List.length_eq_zero.mp (by omega)
  subst he
  have h2 := h 0 [0x22]
  rw [List.nil_append, unquoteLoop_quote 0 0x22 [] rfl] at h2
  simp only [unquoteLoop, Option.map_none'] at h2
  exact absurd h2 (by simp)

/-- One iteration of the string encoder on any input, and what the decoder makes of its
output: the rune read, or U+FFFD for a byte that starts no rune. -/
theorem string_step (b : Byte) (rest : Bytes) (fuel : Nat) :
    ∃ e out k, 1 ≤ k ∧ k ≤ (b :: rest).length ∧
      stringLoop (fuel + 1) (b :: rest) = e ++ stringLoop fuel ((b :: rest).drop k) ∧
      0 < e.length ∧
      ∀ g X, unquoteLoop (g + 1) (e ++ X) =
        (unquoteLoop g X).map (fun r => (out ++ r.1, r.2)) := by
  generalize hd : utf8.DecodeRune (b :: rest) = d
  obtain ⟨c, size⟩ := d
  by_cases herr : c = utf8.RuneError ∧ size = 1
  · have hb : ¬ b.val < 0x80 := by
      intro hlt
      rw [utf8.decode_ascii b rest hlt] at hd
      simp only [Prod.mk.injEq] at hd
      have := herr.1
      simp only [utf8.RuneError] at this
      omega
    have hstr : str "\\ufffd" = [0x5C, 0x75, 0x66, 0x66, 0x66, 0x64] := by decide
    refine ⟨str "\\ufffd", utf8.EncodeRune 0xFFFD, 1, Nat.le_refl _, by simp, ?_, by
      rw [hstr]; simp, ?_⟩
    · simp only [stringLoop]
      rw [if_neg hb, hd]
      simp only
      rw [if_pos herr]
      rfl
    · intro g X
      rw [hstr]
      exact unquoteLoop_unicode g 0x5C 0x75 0xFFFD _ X rfl rfl rfl rfl
  · obtain ⟨pre, tl, hsplit, hlen, henc⟩ := utf8.encodes_of_decode b rest c size hd herr
    obtain ⟨e, he1, he2⟩ := string_chunk henc fuel tl
    have hpos := henc.length_pos
    refine ⟨e, pre, pre.length, hpos, ?_, ?_, nonempty_of_unquote_step e pre he2, he2⟩
    · rw [hsplit, List.length_append]
      omega
    · rw [hsplit, he1, List.drop_left]

/-- The string decoder accepts what the string encoder writes for any Go string. -/
theorem unquoteLoop_stringLoop_any :
    ∀ (fuel : Nat) (s : Bytes), s.length ≤ fuel →
      ∃ out, ∀ (g : Nat) (q : Byte) (rest : Bytes), q.val = 0x22 →
        (stringLoop fuel s).length + 1 ≤ g →
        unquoteLoop g (stringLoop fuel s ++ q :: rest) = some (out, rest) := by
  intro fuel
  induction fuel with
  | zero =>
    intro s hs
    refine ⟨[], ?_⟩
    intro g q rest hq hg
    have h0 : stringLoop 0 s = [] := rfl
    rw [h0] at hg ⊢
    obtain ⟨g, rfl⟩ : ∃ g', g = g' + 1 := ⟨g - 1, by simp at hg; omega⟩
    exact unquoteLoop_quote g q rest hq
  | succ fuel ih =>
    intro s hs
    cases s with
    | nil =>
      refine ⟨[], ?_⟩
      intro g q rest hq hg
      have h0 : stringLoop (fuel + 1) [] = [] := rfl
      rw [h0] at hg ⊢
      obtain ⟨g, rfl⟩ : ∃ g', g = g' + 1 := ⟨g - 1, by simp at hg; omega⟩
      exact unquoteLoop_quote g q rest hq
    | cons b tl =>
      obtain ⟨e, out1, k, hk1, hk2, hstep, hepos, hdec⟩ := string_step b tl fuel
      have hlen : ((b :: tl).drop k).length ≤ fuel := by
        rw [List.length_drop]
        simp only [List.length_cons] at hs hk2 ⊢
        omega
      obtain ⟨out2, h2⟩ := ih _ hlen
      refine ⟨out1 ++ out2, ?_⟩
      intro g q rest hq hg
      rw [hstep, List.length_append] at hg
      obtain ⟨g, rfl⟩ : ∃ g', g = g' + 1 := ⟨g - 1, by omega⟩
      rw [hstep, List.append_assoc, hdec, h2 g q rest hq (by omega)]
      rfl

theorem parseValue_quote (fuel : Nat) (q : Byte) (body : Bytes) (hq : q.val = 0x22) :
    parseValue (fuel + 1) (q :: body) =
      (unquote body).map (fun r => (Value.string r.1, r.2)) := by
  simp only [parseValue]
  rw [skipSpace_cons q body (isSpace_of_val (Or.inl hq))]
  simp only
  rw [if_pos hq]

/-- A string literal that the encoder wrote parses to a string, whatever the Go string was
and whatever follows the literal. -/
theorem parseValue_encodeString_any (s : Bytes) :
    ∃ out, ∀ (fuel : Nat) (rest : Bytes),
      parseValue (fuel + 1) (encodeString s ++ rest) = some (Value.string out, rest) := by
  obtain ⟨out, h⟩ := unquoteLoop_stringLoop_any s.length s (Nat.le_refl _)
  refine ⟨out, ?_⟩
  intro fuel rest
  have hq : encodeString s ++ rest =
      (0x22 : Byte) :: (stringLoop s.length s ++ (0x22 : Byte) :: rest) := by
    simp [encodeString]
  rw [hq, parseValue_quote fuel _ _ rfl]
  unfold unquote
  rw [h _ 0x22 rest rfl (by simp)]
  rfl

/-- The JSON text that `Marshal` writes for any record parses to an object, whatever
follows it. -/
theorem parseValue_marshal_any (t : Tuna) :
    ∃ ms, ∀ (fuel : Nat) (rest : Bytes),
      parseValue (fuel + 9) (Marshal t ++ rest) = some (Value.object ms, rest) := by
  obtain ⟨o1, h1⟩ := parseValue_encodeString_any t.ID
  obtain ⟨o2, h2⟩ := parseValue_encodeString_any t.Temperature
  obtain ⟨o3, h3⟩ := parseValue_encodeString_any t.Humidity
  obtain ⟨o4, h4⟩ := parseValue_encodeString_any t.Location
  obtain ⟨o5, h5⟩ := parseValue_encodeString_any t.Timestamp
  obtain ⟨o6, h6⟩ := parseValue_encodeString_any t.Agreement
  obtain ⟨o7, h7⟩ := parseValue_encodeString_any t.Status
  exact ⟨_, fun fuel rest => parseValue_marshal t o1 o2 o3 o4 o5 o6 o7 h1 h2 h3 h4 h5 h6 h7
    fuel rest⟩

/-- A key of valid UTF-8 without quote, backslash and control byte, put between quotes as
it is, decodes to itself. -/
theorem unquoteLoop_safe {key : Bytes} (h : utf8.WellFormed key) :
    (∀ b ∈ key, 0x20 ≤ b.val ∧ b.val ≠ 0x22 ∧ b.val ≠ 0x5C) →
    ∀ (g : Nat) (q : Byte) (rest : Bytes), q.val = 0x22 → key.length + 1 ≤ g →
      unquoteLoop g (key ++ q :: rest) = some (key, rest) := by
  induction h with
  | nil =>
    intro _ g q rest hq hg
    obtain ⟨g, rfl⟩ : ∃ g', g = g' + 1 := ⟨g - 1, by simp at hg; omega⟩
    exact unquoteLoop_quote g q rest hq
  | cons pre tl c hc _ ih =>
    intro hs g q rest hq hg
    have hpos := hc.length_pos
    obtain ⟨hne, hdec, herr, henc⟩ := hc
    rw [List.length_append] at hg
    obtain ⟨g, rfl⟩ : ∃ g', g = g' + 1 := ⟨g - 1, by omega⟩
    have ih' := ih (fun b hb => hs b (List.mem_append_right _ hb)) g q rest hq (by omega)
    obtain ⟨b, pre', rfl⟩ : ∃ b pre', pre = b :: pre' := by
      cases pre with
      | nil => exact absurd rfl hne
      | cons a l => exact ⟨a, l, rfl⟩
    have hsb := hs b (by simp)
    by_cases hb : b.val < 0x80
    · have h1 := hdec []
      rw [List.append_nil, utf8.decode_ascii b pre' hb] at h1
      simp only [Prod.mk.injEq, List.length_cons] at h1
      have hp : pre' = [] := List.length_eq_zero.mp (by omega)
      subst hp
      rw [List.append_assoc, List.singleton_append,
        unquoteLoop_plain g b _ hsb.2.1 hsb.2.2 hsb.1 hb, ih']
      rfl
    · have key := unquoteLoop_raw g b (pre' ++ (tl ++ q :: rest)) c (b :: pre').length
        (by omega) (by
          have := hdec (tl ++ q :: rest)
          rw [List.cons_append] at this
          exact this)
      have hdrop : List.drop (b :: pre').length (b :: (pre' ++ (tl ++ q :: rest))) =
          tl ++ q :: rest := by
        rw [← List.cons_append]
        exact List.drop_left _ _
      rw [hdrop, ih', henc] at key
      rw [List.append_assoc, List.cons_append, key]
      rfl

/-- A safe key between quotes parses to the string that is the key. -/
theorem parseValue_safeKey (key : Bytes) (hsafe : safeKey key = true) (fuel : Nat)
    (rest : Bytes) :
    parseValue (fuel + 1) ((0x22 : Byte) :: (key ++ [(0x22 : Byte)]) ++ rest) =
      some (Value.string key, rest) := by
  simp only [safeKey, Bool.and_eq_true, List.all_eq_true, decide_eq_true_eq] at hsafe
  have hwf := wellFormed_of_valid hsafe.1
  have hu := unquoteLoop_safe hwf hsafe.2 (key ++ (0x22 : Byte) :: rest).length 0x22 rest rfl
    (by simp)
  have hq : (0x22 : Byte) :: (key ++ [(0x22 : Byte)]) ++ rest =
      (0x22 : Byte) :: (key ++ (0x22 : Byte) :: rest) := by simp
  rw [hq, parseValue_quote fuel _ _ rfl]
  unfold unquote
  rw [hu]
  rfl

theorem parseMembers_space (value : Bytes → Option (Value × Bytes)) (fuel : Nat) (sp : Byte)
    (input : Bytes) (h : isSpace sp = true) :
    parseMembers value (fuel + 1) (sp :: input) = parseMembers value (fuel + 1) input := by
  simp only [parseMembers, skipSpace, h, if_true]

theorem arrayMember_eq (key value : Bytes) :
    arrayMember (key, value) = (0x7B : Byte) :: (encodeString (str "Key") ++ (0x3A : Byte) ::
      (((0x22 : Byte) :: (key ++ [(0x22 : Byte)])) ++ (0x2C : Byte) :: ((0x20 : Byte) ::
      (encodeString (str "Record") ++ (0x3A : Byte) :: (value ++ [(0x7D : Byte)]))))) := by
  have e1 : str "\x7b\"Key\":\"" =
      (0x7B : Byte) :: (encodeString (str "Key") ++ [(0x3A : Byte), (0x22 : Byte)]) := by decide
  have e2 : str "\", \"Record\":" = (0x22 : Byte) :: (0x2C : Byte) :: (0x20 : Byte) ::
      (encodeString (str "Record") ++ [(0x3A : Byte)]) := by decide
  have e3 : str "\x7d" = [(0x7D : Byte)] := by decide
  simp only [arrayMember, e1, e2, e3, List.cons_append, List.append_assoc, List.nil_append,
    List.singleton_append]

/-- An element that `queryAllTuna` writes for a safe key and a value that parses, parses to
the object with the members `Key` and `Record`. -/
theorem parseValue_arrayMember (key value : Bytes) (val : Value) (hk : safeKey key = true)
    (hv : ∀ (fuel : Nat) (rest : Bytes), parseValue (fuel + 9) (value ++ rest) = some (val, rest))
    (fuel : Nat) (rest : Bytes) :
    parseValue (fuel + 11) (arrayMember (key, value) ++ rest) =
      some (Value.object [(str "Key", Value.string key), (str "Record", val)], rest) := by
  have k1 : utf8.WellFormed (str "Key") := wellFormed_of_valid (by decide)
  have k2 : utf8.WellFormed (str "Record") := wellFormed_of_valid (by decide)
  obtain ⟨body, hbody⟩ : ∃ body, encodeString (str "Key") = (0x22 : Byte) :: body :=
    ⟨stringLoop (str "Key").length (str "Key") ++ [0x22], by simp [encodeString]⟩
  rw [arrayMember_eq]
  simp only [List.cons_append, List.append_assoc, List.nil_append]
  rw [hbody, List.cons_append, parseValue_object _ _ _ _ rfl rfl, ← List.cons_append, ← hbody]
  have hkey : ∀ input, parseValue (fuel + 10) ((0x22 : Byte) :: (key ++ (0x22 : Byte) :: input))
      = some (Value.string key, input) := by
    intro input
    have := parseValue_safeKey key hk (fuel + 9) input
    simpa using this
  have m1 := parseMembers_more (parseValue (fuel + 10)) (fuel + 9) (str "Key")
    ((0x22 : Byte) :: (key ++ [(0x22 : Byte)]))
    ((0x20 : Byte) :: (encodeString (str "Record") ++ (0x3A : Byte) ::
      (value ++ (0x7D : Byte) :: rest))) (Value.string key) k1 (by
        intro input
        have := hkey input
        simpa using this)
  simp only [List.cons_append, List.append_assoc, List.nil_append, List.singleton_append]
    at m1
  rw [m1, parseMembers_space _ _ _ _ (by decide),
    parseMembers_last _ _ _ _ _ _ k2 (fun i => hv (fuel + 1) i)]
  rfl

theorem arrayMembers_cons (e : Bytes × Bytes) (rest : List (Bytes × Bytes)) :
    arrayMembers (e :: rest) =
      arrayMember e ++ (if rest = [] then [] else str "," ++ arrayMembers rest) := by
  cases rest with
  | nil => simp [arrayMembers]
  | cons e2 rest2 => simp [arrayMembers]

theorem isSpace_bracket {b : Byte} (h : b.val = 0x5B ∨ b.val = 0x5D) : isSpace b = false := by
  simp only [isSpace, decide_eq_false_iff_not]
  omega

/-- An array that starts with an object is parsed element by element. -/
theorem parseValue_array (fuel : Nat) (b c : Byte) (rest : Bytes) (hb : b.val = 0x5B)
    (hc : c.val = 0x7B) :
    parseValue (fuel + 1) (b :: c :: rest) =
      (parseElements (parseValue fuel) fuel (c :: rest)).map
        (fun r => (Value.array r.1, r.2)) := by
  simp only [parseValue]
  rw [skipSpace_cons b _ (isSpace_bracket (Or.inl hb))]
  simp only
  rw [if_neg (by omega), if_neg (by omega), if_pos hb,
    skipSpace_cons c _ (isSpace_of_val (by omega))]
  simp only
  rw [if_neg (by omega)]

/-- The elements that `queryAllTuna` writes for safe keys and values that parse, parse to
objects whose keys are the keys of the entries, in order. -/
theorem parseElements_arrayMembers :
    ∀ (elems : List (Bytes × Bytes)), elems ≠ [] →
      (∀ e ∈ elems, safeKey e.1 = true ∧ ∃ val, ∀ (fuel : Nat) (rest : Bytes),
        parseValue (fuel + 9) (e.2 ++ rest) = some (val, rest)) →
      ∀ (f limit : Nat) (close : Byte) (rest : Bytes), close.val = 0x5D →
        elems.length ≤ limit →
        ∃ vs, parseElements (parseValue (f + 11)) limit (arrayMembers elems ++ close :: rest)
            = some (vs, rest) ∧
          elementKeys vs = some (elems.map Prod.fst) := by
  intro elems
  induction elems with
  | nil => intro h; exact absurd rfl h
  | cons e tl ih =>
    intro _ hall f limit close rest hclose hlimit
    obtain ⟨key, value⟩ := e
    obtain ⟨hk, val, hv⟩ := hall (key, value) (List.mem_cons_self _ _)
    simp only [List.length_cons] at hlimit
    obtain ⟨limit, rfl⟩ : ∃ l, limit = l + 1 := ⟨limit - 1, by omega⟩
    have hkeyof : elementKey (Value.object [(str "Key", Value.string key), (str "Record", val)])
        = some key := by
      simp [elementKey]
    rw [arrayMembers_cons]
    by_cases htl : tl = []
    · subst htl
      refine ⟨[Value.object [(str "Key", Value.string key), (str "Record", val)]], ?_, ?_⟩
      · simp only [if_true, List.append_nil]
        simp only [parseElements]
        rw [parseValue_arrayMember key value val hk hv f (close :: rest)]
        simp only
        rw [skipSpace_cons close _ (isSpace_bracket (Or.inr hclose))]
        simp only
        rw [if_neg (by omega), if_pos hclose]
      · simp [elementKeys, hkeyof]
    · obtain ⟨vs, hvs, hkeys⟩ := ih htl
        (fun e he => hall e (List.mem_cons_of_mem _ he)) f limit close rest hclose (by omega)
      refine ⟨Value.object [(str "Key", Value.string key), (str "Record", val)] :: vs, ?_, ?_⟩
      · have hcomma : str "," = [(0x2C : Byte)] := by decide
        rw [if_neg htl, hcomma]
        simp only [List.append_assoc, List.singleton_append]
        simp only [parseElements]
        rw [parseValue_arrayMember key value val hk hv f _]
        simp only [List.cons_append]
        rw [skipSpace_cons (0x2C : Byte) _ (isSpace_of_val (Or.inr (Or.inr (Or.inl rfl))))]
        simp only
        rw [if_pos (show ((0x2C : Byte).val = 0x2C) from rfl), hvs]
        rfl
      · simp [elementKeys, hkeyof, hkeys]

theorem length_arrayMember (key value : Bytes) :
    (arrayMember (key, value)).length = key.length + value.length + 21 := by
  have c1 : (encodeString (str "Key")).length = 5 := by decide
  have c2 : (encodeString (str "Record")).length = 8 := by decide
  rw [arrayMember_eq]
  simp only [List.length_cons, List.length_append, List.length_nil, c1, c2]
  omega

theorem length_le_arrayMembers (elems : List (Bytes × Bytes)) :
    elems.length ≤ (arrayMembers elems).length := by
  induction elems with
  | nil => simp [arrayMembers]
  | cons e tl ih =>
    obtain ⟨key, value⟩ := e
    rw [arrayMembers_cons, List.length_append, length_arrayMember]
    by_cases h : tl = []
    · subst h
      simp
    · rw [if_neg h, List.length_append]
      simp only [List.length_cons]
      omega

/-- The payload that `queryAllTuna` writes for entries with safe keys and values that parse
is a JSON array, and the keys of its elements are the keys of the entries, in order. -/
theorem payloadKeys_arrayMembers (elems : List (Bytes × Bytes))
    (hall : ∀ e ∈ elems, safeKey e.1 = true ∧ ∃ val, ∀ (fuel : Nat) (rest : Bytes),
      parseValue (fuel + 9) (e.2 ++ rest) = some (val, rest)) :
    payloadKeys (str "[" ++ arrayMembers elems ++ str "]") = some (elems.map Prod.fst) := by
  have hopen : str "[" = [(0x5B : Byte)] := by decide
  have hclose : str "]" = [(0x5D : Byte)] := by decide
  cases elems with
  | nil => decide
  | cons e tl =>
    obtain ⟨key, value⟩ := e
    have hlen := length_le_arrayMembers ((key, value) :: tl)
    have hbig : 11 ≤ (arrayMembers ((key, value) :: tl)).length := by
      rw [arrayMembers_cons, List.length_append, length_arrayMember]
      omega
    obtain ⟨body, hbody⟩ : ∃ body, arrayMembers ((key, value) :: tl) = (0x7B : Byte) :: body := by
      rw [arrayMembers_cons, arrayMember_eq]
      exact ⟨_, rfl⟩
    have hpay : str "[" ++ arrayMembers ((key, value) :: tl) ++ str "]" =
        (0x5B : Byte) :: (0x7B : Byte) :: (body ++ [(0x5D : Byte)]) := by
      rw [hbody, hopen, hclose]
      rfl
    obtain ⟨f, hf⟩ : ∃ f, (str "[" ++ arrayMembers ((key, value) :: tl) ++ str "]").length
        = f + 11 := by
      refine ⟨(str "[" ++ arrayMembers ((key, value) :: tl) ++ str "]").length - 11, ?_⟩
      simp only [List.length_append]
      omega
    obtain ⟨vs, hvs, hkeys⟩ := parseElements_arrayMembers ((key, value) :: tl) (by simp) hall
      f (f + 11) 0x5D [] rfl (by
        have := hf
        simp only [List.length_append] at this
        omega)
    rw [hbody, List.cons_append] at hvs
    unfold payloadKeys parse
    rw [hf, hpay, parseValue_array (f + 11) 0x5B 0x7B _ rfl rfl, hvs]
    simp only [Option.map_some', skipSpace, List.isEmpty_nil, if_true]
    exact hkeys

end json

/-! ### The world state -/

theorem lookup_filter_ne (key k : Bytes) (l : List (Bytes × Bytes)) (h : k ≠ key) :
    (l.filter (fun e => decide (e.1 ≠ key))).lookup k = l.lookup k := by
  induction l with
  | nil => rfl
  | cons x rest ih =>
    obtain ⟨a, v⟩ := x
    by_cases ha : a = key
    · subst ha
      have hne : (k == a) = false := by simpa using h
      have hd : decide ((a, v).1 ≠ a) = false := decide_eq_false (by simp)
      rw [List.filter_cons]
      simp only [hd, Bool.false_eq_true, if_false]
      rw [ih, List.lookup_cons, hne]
    · have hd : decide ((a, v).1 ≠ key) = true := decide_eq_true ha
      rw [List.filter_cons]
      simp only [hd, if_true]
      rw [List.lookup_cons, List.lookup_cons, ih]

theorem stored_putState_same (stub stub1 : Stub) (key value : Bytes)
    (h : PutState stub key value = some stub1) : stored stub1 key = some value := by
  unfold PutState at h
  split_ifs at h
  simp only [Option.some.injEq] at h
  subst h
  simp [stored, List.lookup]

theorem stored_putState_other (stub stub1 : Stub) (key value k : Bytes)
    (h : PutState stub key value = some stub1) (hk : k ≠ key) :
    stored stub1 k = stored stub k := by
  unfold PutState at h
  split_ifs at h
  simp only [Option.some.injEq] at h
  subst h
  have hne : (k == key) = false := by simpa using hk
  simp only [stored, List.lookup, hne]
  exact lookup_filter_ne key k stub.state hk

theorem putState_oracles (stub stub1 : Stub) (key value : Bytes)
    (h : PutState stub key value = some stub1) :
    stub1.putFails = stub.putFails ∧ stub1.getFails = stub.getFails ∧
      stub1.scanFails = stub.scanFails ∧ stub1.nextFails = stub.nextFails := by
  unfold PutState at h
  split_ifs at h
  simp only [Option.some.injEq] at h
  subst h
  exact ⟨rfl, rfl, rfl, rfl⟩

theorem putState_mem (stub stub1 : Stub) (key value : Bytes) (e : Bytes × Bytes)
    (h : PutState stub key value = some stub1) (he : e ∈ stub1.state) :
    e = (key, value) ∨ e ∈ stub.state := by
  unfold PutState at h
  split_ifs at h
  simp only [Option.some.injEq] at h
  subst h
  rcases List.mem_cons.mp he with h1 | h1
  · exact Or.inl h1
  · exact Or.inr (List.mem_filter.mp h1).1

theorem putState_keys (stub stub1 : Stub) (key value k : Bytes)
    (h : PutState stub key value = some stub1) :
    k ∈ stub1.state.map Prod.fst ↔ k = key ∨ k ∈ stub.state.map Prod.fst := by
  unfold PutState at h
  split_ifs at h
  simp only [Option.some.injEq] at h
  subst h
  simp only [List.map_cons, List.mem_cons, List.mem_map, List.mem_filter, decide_eq_true_eq]
  constructor
  · rintro (h1 | ⟨e, ⟨he, _⟩, rfl⟩)
    · exact Or.inl h1
    · exact Or.inr ⟨e, he, rfl⟩
  · rintro (h1 | ⟨e, he, rfl⟩)
    · exact Or.inl h1
    · by_cases hk : e.1 = key
      · exact Or.inl hk
      · exact Or.inr ⟨e, ⟨he, hk⟩, rfl⟩

/-! ### The order of keys -/

theorem keyLt_irrefl : ∀ a : Bytes, keyLt a a = false := by
  intro a
  induction a with
  | nil => rfl
  | cons x rest ih => simp [keyLt, ih]

theorem keyLt_trans : ∀ a b c : Bytes, keyLt a b = true → keyLt b c = true →
    keyLt a c = true := by
  intro a
  induction a with
  | nil =>
    intro b c h1 h2
    cases b with
    | nil => simp [keyLt] at h1
    | cons y bs =>
      cases c with
      | nil => simp [keyLt] at h2
      | cons z cs => rfl
  | cons x as ih =>
    intro b c h1 h2
    cases b with
    | nil => simp [keyLt] at h1
    | cons y bs =>
      cases c with
      | nil => simp [keyLt] at h2
      | cons z cs =>
        simp only [keyLt] at h1 h2 ⊢
        by_cases hxy : x.val < y.val
        · by_cases hyz : y.val < z.val
          · rw [if_pos (by omega)]
          · rw [if_neg hyz] at h2
            by_cases hzy : z.val < y.val
            · rw [if_pos hzy] at h2
              exact absurd h2 (by simp)
            · rw [if_pos (by omega)]
        · rw [if_neg hxy] at h1
          by_cases hyx : y.val < x.val
          · rw [if_pos hyx] at h1
            exact absurd h1 (by simp)
          · rw [if_neg hyx] at h1
            by_cases hyz : y.val < z.val
            · rw [if_pos (by omega)]
            · rw [if_neg hyz] at h2
              by_cases hzy : z.val < y.val
              · rw [if_pos hzy] at h2
                exact absurd h2 (by simp)
              · rw [if_neg hzy] at h2
                rw [if_neg (by omega), if_neg (by omega)]
                exact ih bs cs h1 h2

theorem keyLt_total : ∀ a b : Bytes, keyLt a b = false → a ≠ b → keyLt b a = true := by
  intro a
  induction a with
  | nil =>
    intro b h1 h2
    cases b with
    | nil => exact absurd rfl h2
    | cons y bs => simp [keyLt] at h1
  | cons x as ih =>
    intro b h1 h2
    cases b with
    | nil => rfl
    | cons y bs =>
      simp only [keyLt] at h1 ⊢
      by_cases hxy : x.val < y.val
      · rw [if_pos hxy] at h1
        exact absurd h1 (by simp)
      · rw [if_neg hxy] at h1
        by_cases hyx : y.val < x.val
        · rw [if_pos hyx]
        · rw [if_neg hyx] at h1
          rw [if_neg hyx, if_neg hxy]
          have hxe : x = y := Fin.ext (by omega)
          subst hxe
          exact ih bs h1 (fun h => h2 (by rw [h]))

theorem keyLt_ne (a b : Bytes) (h : keyLt a b = true) : a ≠ b := by
  intro hab
  subst hab
  rw [keyLt_irrefl] at h
  exact absurd h (by simp)

/-! ### The range scan -/

theorem mem_insertEntry (e y : Bytes × Bytes) (l : List (Bytes × Bytes))
    (h : y ∈ insertEntry e l) : y = e ∨ y ∈ l := by
  induction l with
  | nil =>
    simp only [insertEntry, List.mem_singleton] at h
    exact Or.inl h
  | cons x rest ih =>
    simp only [insertEntry] at h
    split_ifs at h
    · rcases List.mem_cons.mp h with h1 | h1
      · exact Or.inl h1
      · exact Or.inr h1
    · rcases List.mem_cons.mp h with h1 | h1
      · exact Or.inl h1
      · exact Or.inr (List.mem_cons_of_mem _ h1)
    · rcases List.mem_cons.mp h with h1 | h1
      · exact Or.inr (by rw [h1]; exact List.mem_cons_self _ _)
      · rcases ih h1 with h2 | h2
        · exact Or.inl h2
        · exact Or.inr (List.mem_cons_of_mem _ h2)

theorem ascending_insertEntry (e : Bytes × Bytes) (l : List (Bytes × Bytes))
    (h : Ascending l) : Ascending (insertEntry e l) := by
  induction l with
  | nil => exact List.pairwise_singleton _ _
  | cons x rest ih =>
    have hx := List.pairwise_cons.mp h
    simp only [insertEntry]
    split_ifs with h1 h2
    · refine List.pairwise_cons.mpr ⟨?_, h⟩
      intro y hy
      rcases List.mem_cons.mp hy with rfl | hy
      · exact h1
      · exact keyLt_trans _ _ _ h1 (hx.1 y hy)
    · refine List.pairwise_cons.mpr ⟨?_, hx.2⟩
      intro y hy
      rw [h2]
      exact hx.1 y hy
    · refine List.pairwise_cons.mpr ⟨?_, ih hx.2⟩
      intro y hy
      rcases mem_insertEntry e y rest hy with rfl | hy
      · exact keyLt_total _ _ (by simpa using h1) h2
      · exact hx.1 y hy

theorem ascending_sortEntries (l : List (Bytes × Bytes)) : Ascending (sortEntries l) := by
  induction l with
  | nil => exact List.Pairwise.nil
  | cons e rest ih => exact ascending_insertEntry e _ ih

theorem keys_insertEntry (e : Bytes × Bytes) (l : List (Bytes × Bytes)) (k : Bytes) :
    k ∈ (insertEntry e l).map Prod.fst ↔ k = e.1 ∨ k ∈ l.map Prod.fst := by
  induction l with
  | nil => simp [insertEntry]
  | cons x rest ih =>
    simp only [insertEntry]
    split_ifs with h1 h2
    · simp
    · simp only [List.map_cons, List.mem_cons, h2]
      tauto
    · simp only [List.map_cons, List.mem_cons, ih]
      tauto

theorem keys_sortEntries (l : List (Bytes × Bytes)) (k : Bytes) :
    k ∈ (sortEntries l).map Prod.fst ↔ k ∈ l.map Prod.fst := by
  induction l with
  | nil => simp [sortEntries]
  | cons e rest ih =>
    simp only [sortEntries, keys_insertEntry, ih, List.map_cons, List.mem_cons]

theorem ascending_keys (l : List (Bytes × Bytes)) (h : Ascending l) :
    List.Pairwise (fun a b => keyLt a b = true) (l.map Prod.fst) :=
  List.pairwise_map.mpr h

theorem nodup_keys_of_ascending (l : List (Bytes × Bytes)) (h : Ascending l) :
    (l.map Prod.fst).Nodup :=
  (ascending_keys l h).imp (fun hab => keyLt_ne _ _ hab)

/-- The range scan returns its entries in strictly ascending key order. -/
theorem ascending_scanEntries (stub : Stub) (startKey endKey : Bytes) :
    List.Pairwise (fun a b => keyLt a b = true)
      ((scanEntries stub startKey endKey).map Prod.fst) :=
  ascending_keys _ ((ascending_sortEntries stub.state).sublist (List.filter_sublist _))

/-- The range scan returns one entry for each key of the state that lies in the range. -/
theorem length_scanEntries (stub : Stub) (startKey endKey : Bytes) :
    (scanEntries stub startKey endKey).length =
      (((stub.state.map Prod.fst).dedup).filter (inRange startKey endKey)).length := by
  have hperm : ((sortEntries stub.state).map Prod.fst).Perm (stub.state.map Prod.fst).dedup := by
    refine (List.perm_ext_iff_of_nodup
      (nodup_keys_of_ascending _ (ascending_sortEntries _)) (List.nodup_dedup _)).mpr ?_
    intro k
    rw [keys_sortEntries, List.mem_dedup]
  have h1 : (scanEntries stub startKey endKey).length =
      (((sortEntries stub.state).map Prod.fst).filter (inRange startKey endKey)).length := by
    unfold scanEntries
    rw [List.filter_map, List.length_map]
    rfl
  rw [h1]
  exact (hperm.filter _).length_eq

theorem applyWrites_keys :
    ∀ (ws : List (Bytes × Tuna)) (stub stub1 : Stub), applyWrites ws stub = some stub1 →
      ∀ k, k ∈ stub1.state.map Prod.fst ↔
        k ∈ ws.map Prod.fst ∨ k ∈ stub.state.map Prod.fst := by
  intro ws
  induction ws with
  | nil =>
    intro stub stub1 h k
    simp only [applyWrites, Option.some.injEq] at h
    subst h
    simp
  | cons w rest ih =>
    intro stub stub1 h k
    obtain ⟨key, tuna⟩ := w
    simp only [applyWrites] at h
    cases hp : PutState stub key (json.Marshal tuna) with
    | none => rw [hp] at h; simp at h
    | some stub2 =>
      rw [hp] at h
      simp only at h
      rw [ih stub2 stub1 h k, putState_keys stub stub2 key _ k hp]
      simp only [List.map_cons, List.mem_cons]
      tauto

/-- Every entry of a store reached by writes of marshalled records is an entry of the store
before, or one of the records written. -/
theorem applyWrites_mem :
    ∀ (ws : List (Bytes × Tuna)) (stub stub1 : Stub), applyWrites ws stub = some stub1 →
      ∀ e ∈ stub1.state, e ∈ stub.state ∨ ∃ w ∈ ws, e = (w.1, json.Marshal w.2) := by
  intro ws
  induction ws with
  | nil =>
    intro stub stub1 h e he
    simp only [applyWrites, Option.some.injEq] at h
    subst h
    exact Or.inl he
  | cons w rest ih =>
    intro stub stub1 h e he
    obtain ⟨key, tuna⟩ := w
    simp only [applyWrites] at h
    cases hp : PutState stub key (json.Marshal tuna) with
    | none => rw [hp] at h; simp at h
    | some stub2 =>
      rw [hp] at h
      simp only at h
      rcases ih stub2 stub1 h e he with h1 | ⟨w, hw, h1⟩
      · rcases putState_mem stub stub2 key _ e hp h1 with h2 | h2
        · exact Or.inr ⟨(key, tuna), List.mem_cons_self _ _, h2⟩
        · exact Or.inl h2
      · exact Or.inr ⟨w, List.mem_cons_of_mem _ hw, h1⟩

/-- After writes to an empty store, the range scan returns one entry for each distinct key
written that lies in the range. -/
theorem length_scanEntries_writes (ws : List (Bytes × Tuna)) (stub stub1 : Stub)
    (h0 : stub.state = []) (h : applyWrites ws stub = some stub1) (startKey endKey : Bytes) :
    (scanEntries stub1 startKey endKey).length =
      (((ws.map Prod.fst).dedup).filter (inRange startKey endKey)).length := by
  rw [length_scanEntries]
  have hperm : ((stub1.state.map Prod.fst).dedup).Perm ((ws.map Prod.fst).dedup) := by
    refine (List.perm_ext_iff_of_nodup (List.nodup_dedup _) (List.nodup_dedup _)).mpr ?_
    intro k
    rw [List.mem_dedup, List.mem_dedup, applyWrites_keys ws stub stub1 h k, h0]
    simp
  exact (hperm.filter _).length_eq

/-! ### The array that `queryAllTuna` writes -/

theorem iterate_working (nextFails : Nat → Option Bytes) (h : ∀ i, nextFails i = none) :
    ∀ (l : List (Bytes × Bytes)) (i : Nat), iterate nextFails i l = l.map Except.ok := by
  intro l
  induction l with
  | nil => intro i; rfl
  | cons e rest ih =>
    intro i
    simp only [iterate, h i, ih, List.map_cons]

theorem queryAllTunaLoop_cons (key value : Bytes) (rest : List (Except Bytes (Bytes × Bytes)))
    (written : Bool) (buffer : Bytes) :
    queryAllTunaLoop (Except.ok (key, value) :: rest) written buffer =
      queryAllTunaLoop rest true
        ((if written then buffer ++ str "," else buffer) ++ arrayMember (key, value)) := by
  have e1 : str "\x7b\"Key\":\"" = str "\x7b\"Key\":" ++ str "\"" := by decide
  have e2 : str "\", \"Record\":" = str "\"" ++ str ", \"Record\":" := by decide
  simp only [queryAllTunaLoop, arrayMember, e1, e2, List.append_assoc]

theorem queryAllTunaLoop_eq :
    ∀ (l : List (Bytes × Bytes)) (written : Bool) (buffer : Bytes),
      queryAllTunaLoop (l.map Except.ok) written buffer =
        Except.ok (buffer ++
          (if l = [] then [] else (if written then str "," else []) ++ arrayMembers l)) := by
  intro l
  induction l with
  | nil =>
    intro written buffer
    simp [queryAllTunaLoop]
  | cons e rest ih =>
    intro written buffer
    obtain ⟨key, value⟩ := e
    rw [List.map_cons, queryAllTunaLoop_cons, ih, json.arrayMembers_cons]
    cases written <;> simp [List.append_assoc]

/-- When neither the scan nor the iteration fails, the payload of `queryAllTuna` is an
opening bracket, the elements for the entries of the scan separated by commas, and a
closing bracket. -/
theorem queryAllTuna_working (stub : Stub)
    (hscan : stub.scanFails (str "0") (str "999") = none)
    (hnext : ∀ i, stub.nextFails i = none) :
    queryAllTuna stub = (Response.Success (some
      (str "[" ++ arrayMembers (scanEntries stub (str "0") (str "999")) ++ str "]")),
      stub) := by
  unfold queryAllTuna GetStateByRange
  rw [hscan]
  simp only
  rw [iterate_working _ hnext, queryAllTunaLoop_eq]
  simp only
  generalize scanEntries stub (str "0") (str "999") = l
  cases l with
  | nil => rfl
  | cons e rest => simp

/-- The stored value of a key is `none` exactly when the key is not in the state. -/
theorem stored_eq_none_iff (stub : Stub) (key : Bytes) :
    stored stub key = none ↔ key ∉ stub.state.map Prod.fst := by
  unfold stored
  induction stub.state with
  | nil => simp [List.lookup]
  | cons e rest ih =>
    obtain ⟨a, v⟩ := e
    by_cases h : key = a
    · subst h
      simp [List.lookup]
    · have hne : (key == a) = false := by simpa using h
      rw [List.lookup_cons, hne]
      simp only [List.map_cons, List.mem_cons, not_or]
      rw [ih]
      exact ⟨fun hh => ⟨h, hh⟩, fun hh => hh.2⟩

/-- What `queryTuna` answers: the not-found error for an absent key, and also for a key
whose read fails; the stored bytes for a present key whose read does not fail. -/
theorem queryTuna_cases (stub : Stub) (key : Bytes) :
    (stored stub key = none ∨ stub.getFails key = true →
      queryTuna stub [key] = (Response.Error (str "Could not locate tuna"), stub)) ∧
    (∀ value, stored stub key = some value → stub.getFails key = false →
      queryTuna stub [key] = (Response.Success (some value), stub)) := by
  constructor
  · intro h
    by_cases hf : stub.getFails key = true
    · simp [queryTuna, GetState, hf]
    · rcases h with h | h
      · simp [queryTuna, GetState, hf, h]
      · exact absurd h hf
  · intro value h hf
    simp [queryTuna, GetState, hf, h]

/-- A record written by `recordTuna` is what `queryTuna` returns under the same key when the
read returns no error, and it decodes to the arguments when these are valid UTF-8. -/
theorem recordTuna_queryTuna (stub : Stub)
    (key id temperature humidity location timestamp agreement status : Bytes)
    (hvalid : Tuna.Valid ⟨id, temperature, humidity, location, timestamp, agreement, status⟩
      = true)
    (hput : (recordTuna stub
      [key, id, temperature, humidity, location, timestamp, agreement, status]).1
        = Response.Success none)
    (hread : (GetState (recordTuna stub
      [key, id, temperature, humidity, location, timestamp, agreement, status]).2 key).2
        = false) :
    decodedRecord (queryTuna (recordTuna stub
      [key, id, temperature, humidity, location, timestamp, agreement, status]).2 [key]).1
      = some ⟨id, temperature, humidity, location, timestamp, agreement, status⟩ := by
  have hwf := json.tunaWF_of_valid _ hvalid
  have hdec := json.unmarshal_marshal _ Tuna.zero hwf
  simp only [recordTuna, List.length_cons, List.length_nil, List.getD_cons_zero,
    List.getD_cons_succ] at hput hread ⊢
  cases hp : PutState stub key
      (json.Marshal ⟨id, temperature, humidity, location, timestamp, agreement, status⟩) with
  | none =>
    rw [hp] at hput
    simp at hput
  | some stub1 =>
    have hget := stored_putState_same stub stub1 key _ hp
    simp only [hp, ne_eq, not_true_eq_false, if_false] at hread
    have hf : stub1.getFails key = false := by
      cases hg : stub1.getFails key with
      | false => rfl
      | true => simp [GetState, hg] at hread
    simp only [hp, ne_eq, not_true_eq_false, if_false]
    rw [((queryTuna_cases stub1 key).2 _ hget hf)]
    simp only [decodedRecord, hdec, if_true]

theorem lookup_insertEntry (e : Bytes × Bytes) (l : List (Bytes × Bytes)) (k : Bytes) :
    (insertEntry e l).lookup k = if k = e.1 then some e.2 else l.lookup k := by
  induction l with
  | nil =>
    by_cases hk : k = e.1
    · subst hk
      simp [insertEntry, List.lookup]
    · have hne : (k == e.1) = false := by simpa using hk
      simp [insertEntry, List.lookup, hne, hk]
  | cons x rest ih =>
    simp only [insertEntry]
    by_cases hk : k = e.1
    · subst hk
      rw [if_pos rfl]
      by_cases h1 : keyLt e.1 x.1 = true
      · rw [if_pos h1]
        simp [List.lookup]
      · rw [if_neg h1]
        by_cases h2 : e.1 = x.1
        · rw [if_pos h2]
          simp [List.lookup]
        · have hne : (e.1 == x.1) = false := by simpa using h2
          rw [if_neg h2, List.lookup_cons, hne, ih, if_pos rfl]
    · have hne : (k == e.1) = false := by simpa using hk
      rw [if_neg hk]
      by_cases h1 : keyLt e.1 x.1 = true
      · rw [if_pos h1, List.lookup_cons, hne]
      · rw [if_neg h1]
        by_cases h2 : e.1 = x.1
        · have hne2 : (k == x.1) = false := by rw [← h2]; exact hne
          rw [if_pos h2, List.lookup_cons, hne, List.lookup_cons, hne2]
        · rw [if_neg h2, List.lookup_cons, List.lookup_cons, ih, if_neg hk]

theorem lookup_sortEntries (l : List (Bytes × Bytes)) (k : Bytes) :
    (sortEntries l).lookup k = l.lookup k := by
  induction l with
  | nil => rfl
  | cons e rest ih =>
    simp only [sortEntries]
    rw [lookup_insertEntry, ih, List.lookup_cons]
    by_cases hk : k = e.1
    · subst hk
      simp
    · have hne : (k == e.1) = false := by simpa using hk
      rw [if_neg hk, hne]

theorem lookup_of_mem_ascending (l : List (Bytes × Bytes)) (h : Ascending l)
    (k v : Bytes) (hmem : (k, v) ∈ l) : l.lookup k = some v := by
  induction l with
  | nil => simp at hmem
  | cons x rest ih =>
    have hx := List.pairwise_cons.mp h
    rcases List.mem_cons.mp hmem with heq | hin
    · rw [← heq]
      simp [List.lookup]
    · have hlt := hx.1 (k, v) hin
      have hne : (k == x.1) = false := by
        simpa using fun hh : k = x.1 => keyLt_ne _ _ hlt hh.symm
      rw [List.lookup_cons, hne]
      exact ih hx.2 hin

theorem mem_of_lookup (l : List (Bytes × Bytes)) (k v : Bytes) (h : l.lookup k = some v) :
    (k, v) ∈ l := by
  induction l with
  | nil => simp [List.lookup] at h
  | cons x rest ih =>
    obtain ⟨a, w⟩ := x
    by_cases hk : k = a
    · subst hk
      simp only [List.lookup_cons, beq_self_eq_true, Option.some.injEq] at h
      subst h
      exact List.mem_cons_self _ _
    · have hne : (k == a) = false := by simpa using hk
      rw [List.lookup_cons, hne] at h
      exact List.mem_cons_of_mem _ (ih h)

/-- The range scan yields exactly the entries that are stored under the keys of the
range. -/
theorem mem_scanEntries_iff (stub : Stub) (startKey endKey key value : Bytes) :
    (key, value) ∈ scanEntries stub startKey endKey ↔
      stored stub key = some value ∧ inRange startKey endKey key = true := by
  unfold scanEntries stored
  rw [List.mem_filter]
  constructor
  · rintro ⟨hmem, hr⟩
    refine ⟨?_, hr⟩
    rw [← lookup_sortEntries]
    exact lookup_of_mem_ascending _ (ascending_sortEntries _) key value hmem
  · rintro ⟨hget, hr⟩
    refine ⟨?_, hr⟩
    rw [← lookup_sortEntries] at hget
    exact mem_of_lookup _ key value hget

/-- Whatever the platform answers to the puts, `initLedger` reports success. -/
theorem initLedger_success (stub : Stub) : (initLedger stub).1 = Response.Success none := rfl

/-- The seeding loop leaves the platform as it is, and the world state it builds depends on
the world state before and on the verdicts on the puts only. -/
theorem initLedgerLoop_congr :
    ∀ (l : List Tuna) (i : Nat) (s s1 : Stub), s.state = s1.state → s.putFails = s1.putFails →
      (initLedgerLoop l i s).state = (initLedgerLoop l i s1).state ∧
      (initLedgerLoop l i s).scanFails = s.scanFails ∧
      (initLedgerLoop l i s).nextFails = s.nextFails ∧
      (initLedgerLoop l i s).getFails = s.getFails := by
  intro l
  induction l with
  | nil =>
    intro i s s1 h1 h2
    exact ⟨h1, rfl, rfl, rfl⟩
  | cons t rest ih =>
    intro i s s1 h1 h2
    simp only [initLedgerLoop]
    have hstep : ((PutState s (Itoa (i + 1)) (json.Marshal t)).getD s).state =
          ((PutState s1 (Itoa (i + 1)) (json.Marshal t)).getD s1).state ∧
        ((PutState s (Itoa (i + 1)) (json.Marshal t)).getD s).putFails =
          ((PutState s1 (Itoa (i + 1)) (json.Marshal t)).getD s1).putFails ∧
        ((PutState s (Itoa (i + 1)) (json.Marshal t)).getD s).scanFails = s.scanFails ∧
        ((PutState s (Itoa (i + 1)) (json.Marshal t)).getD s).nextFails = s.nextFails ∧
        ((PutState s (Itoa (i + 1)) (json.Marshal t)).getD s).getFails = s.getFails := by
      unfold PutState
      rw [← h2]
      by_cases hf : s.putFails (Itoa (i + 1)) (json.Marshal t) = true
      · rw [if_pos hf, if_pos hf]
        simp [h1, h2]
      · rw [if_neg hf, if_neg hf]
        simp [h1, h2]
    obtain ⟨g1, g2, g3, g4, g5⟩ := hstep
    obtain ⟨r1, r2, r3, r4⟩ := ih (i + 1) _ _ g1 g2
    exact ⟨r1, r2.trans g3, r3.trans g4, r4.trans g5⟩

/-- On the seeded store, where no key needs escaping, the payload of `queryAllTuna` is a
well-formed JSON text. -/
theorem queryAllTuna_seeded_valid :
    ∃ payload, (queryAllTuna (initLedger Stub.empty).2).1 = Response.Success (some payload) ∧
      json.Valid payload = true :=
  ⟨_, rfl, by decide⟩

theorem mem_sortEntries (l : List (Bytes × Bytes)) (e : Bytes × Bytes)
    (h : e ∈ sortEntries l) : e ∈ l := by
  induction l with
  | nil => simp [sortEntries] at h
  | cons x rest ih =>
    simp only [sortEntries] at h
    rcases mem_insertEntry x e _ h with h1 | h1
    · rw [h1]
      exact List.mem_cons_self _ _
    · exact List.mem_cons_of_mem _ (ih h1)

/-- When neither the scan nor the iteration fails and the entries of the range have safe
keys and marshalled records as values, the payload of `queryAllTuna` is a JSON array whose
elements carry the keys of the entries of the range, in order. -/
theorem responseKeys_queryAllTuna (stub : Stub)
    (hscan : stub.scanFails (str "0") (str "999") = none)
    (hnext : ∀ i, stub.nextFails i = none)
    (hall : ∀ e ∈ scanEntries stub (str "0") (str "999"),
      safeKey e.1 = true ∧ ∃ tuna, e.2 = json.Marshal tuna) :
    responseKeys (queryAllTuna stub).1 =
      some ((scanEntries stub (str "0") (str "999")).map Prod.fst) := by
  rw [queryAllTuna_working stub hscan hnext]
  simp only [responseKeys]
  refine json.payloadKeys_arrayMembers _ ?_
  intro e he
  obtain ⟨hk, tuna, ht⟩ := hall e he
  obtain ⟨ms, hms⟩ := json.parseValue_marshal_any tuna
  exact ⟨hk, json.Value.object ms, fun fuel rest => by rw [ht]; exact hms fuel rest⟩

/-! ## The properties C1 to C10 -/

/-- C1 (amended): for every store state and every argument list
`[key, id, temperature, humidity, location, timestamp, agreement, status]` whose seven
field arguments are valid UTF-8, for which the put succeeds and for which the read of the
key afterwards returns no error, `recordTuna` followed by `queryTuna` with `[key]` succeeds
and returns bytes that decode, without error, to the record whose seven fields are the
arguments 1 to 7. -/
theorem C1_record_then_query_roundtrip (stub : Stub)
    (key id temperature humidity location timestamp agreement status : Bytes)
    (hvalid : Tuna.Valid ⟨id, temperature, humidity, location, timestamp, agreement, status⟩
      = true)
    (hput : (recordTuna stub
      [key, id, temperature, humidity, location, timestamp, agreement, status]).1
        = Response.Success none)
    (hread : (GetState (recordTuna stub
      [key, id, temperature, humidity, location, timestamp, agreement, status]).2 key).2
        = false) :
    decodedRecord (queryTuna (recordTuna stub
      [key, id, temperature, humidity, location, timestamp, agreement, status]).2 [key]).1
      = some ⟨id, temperature, humidity, location, timestamp, agreement, status⟩ :=
  recordTuna_queryTuna stub key id temperature humidity location timestamp agreement status
    hvalid hput hread

/-- C1, witness: the amended round trip at the arguments of the first seed record on the
empty store. -/
theorem C1_record_then_query_roundtrip_witness :
    decodedRecord (queryTuna (recordTuna Stub.empty
      [str "1", str "923F", str "10", str "24", str "67.0006, -70.5476", str "1504054225",
        str "In", []]).2 [str "1"]).1
      = some ⟨str "923F", str "10", str "24", str "67.0006, -70.5476", str "1504054225",
        str "In", []⟩ :=
  C1_record_then_query_roundtrip Stub.empty (str "1") (str "923F") (str "10") (str "24")
    (str "67.0006, -70.5476") (str "1504054225") (str "In") [] (by decide) (by decide)
    (by decide)

/-- C1, counterexample: with the id argument `"\xff"`, which is not valid UTF-8, the put
succeeds and the query succeeds, but the returned bytes decode to a record whose id is
U+FFFD (`EF BF BD`), not the argument. -/
theorem C1_roundtrip_fails_on_invalid_utf8 :
    (recordTuna Stub.empty [str "1", [0xFF], [], [], [], [], [], []]).1
      = Response.Success none ∧
    decodedRecord (queryTuna (recordTuna Stub.empty
      [str "1", [0xFF], [], [], [], [], [], []]).2 [str "1"]).1
      = some ⟨[0xEF, 0xBF, 0xBD], [], [], [], [], [], []⟩ ∧
    decodedRecord (queryTuna (recordTuna Stub.empty
      [str "1", [0xFF], [], [], [], [], [], []]).2 [str "1"]).1
      ≠ some ⟨[0xFF], [], [], [], [], [], []⟩ := by
  decide

/-- C2 (amended): for every store state, every key present in the store and every new
status that is valid UTF-8, a successful `changeStatus [key, newStatus]` changes only the
status: the value stored afterwards decodes, without error, to the record that the value
stored before decodes to (as `changeStatus` itself decodes it) with `Status` set to
`newStatus`, and the value under every other key is unchanged. -/
theorem C2_changeStatus_changes_only_status (stub : Stub) (key newStatus old : Bytes)
    (hold : stored stub key = some old) (hvalid : utf8.Valid newStatus = true)
    (hok : (changeStatus stub [key, newStatus]).1 = Response.Success none) :
    (∃ new, stored (changeStatus stub [key, newStatus]).2 key = some new ∧
      json.Unmarshal new Tuna.zero =
        ({ (json.Unmarshal old Tuna.zero).1 with Status := newStatus }, true)) ∧
    ∀ k, k ≠ key → stored (changeStatus stub [key, newStatus]).2 k = stored stub k := by
  have hwf0 := json.unmarshal_wf old Tuna.zero json.tunaWF_zero
  have hwf : json.TunaWF { (json.Unmarshal old Tuna.zero).1 with Status := newStatus } := by
    obtain ⟨w1, w2, w3, w4, w5, w6, _⟩ := hwf0
    exact ⟨w1, w2, w3, w4, w5, w6, json.wellFormed_of_valid hvalid⟩
  have hdec := json.unmarshal_marshal _ Tuna.zero hwf
  have hread : (GetState stub key).1 = some old := by
    unfold GetState
    by_cases hf : stub.getFails key = true
    · exfalso
      simp [changeStatus, GetState, hf] at hok
    · rw [if_neg hf]
      exact hold
  simp only [changeStatus, List.length_cons, List.length_nil, List.getD_cons_zero,
    List.getD_cons_succ, hread] at hok ⊢
  cases hp : PutState stub key
      (json.Marshal { (json.Unmarshal old Tuna.zero).1 with Status := newStatus }) with
  | none =>
    rw [hp] at hok
    simp at hok
  | some stub1 =>
    simp only [hp, ne_eq, not_true_eq_false, if_false]
    exact ⟨⟨_, stored_putState_same stub stub1 key _ hp, hdec⟩,
      fun k hk => stored_putState_other stub stub1 key _ k hp hk⟩

/-- C2, witness: the amended statement at the seeded store, key `"3"` and status
`"ACCEPTED"`. -/
theorem C2_changeStatus_changes_only_status_witness :
    (∃ new, stored (changeStatus (initLedger Stub.empty).2 [str "3", str "ACCEPTED"]).2
        (str "3") = some new ∧
      json.Unmarshal new Tuna.zero =
        ({ (json.Unmarshal (json.Marshal ⟨str "T012", str "10", str "24",
            str "58.0148, 59.01391", str "1493517025", str "In", []⟩) Tuna.zero).1 with
          Status := str "ACCEPTED" }, true)) ∧
    ∀ k, k ≠ str "3" →
      stored (changeStatus (initLedger Stub.empty).2 [str "3", str "ACCEPTED"]).2 k
        = stored (initLedger Stub.empty).2 k :=
  C2_changeStatus_changes_only_status (initLedger Stub.empty).2 (str "3") (str "ACCEPTED")
    (json.Marshal ⟨str "T012", str "10", str "24", str "58.0148, 59.01391",
      str "1493517025", str "In", []⟩) (by decide) (by decide) (by decide)

/-- C2, counterexample: with the new status `"\xff"`, which is not valid UTF-8,
`changeStatus` succeeds on a present key, but the status stored afterwards is U+FFFD
(`EF BF BD`), not the new status. -/
theorem C2_status_differs_on_invalid_utf8 :
    stored (initLedger Stub.empty).2 (str "3") ≠ none ∧
    (changeStatus (initLedger Stub.empty).2 [str "3", [0xFF]]).1 = Response.Success none ∧
    ((stored (changeStatus (initLedger Stub.empty).2 [str "3", [0xFF]]).2 (str "3")).map
      (fun new => (json.Unmarshal new Tuna.zero).1.Status)) = some [0xEF, 0xBF, 0xBD] ∧
    ((stored (changeStatus (initLedger Stub.empty).2 [str "3", [0xFF]]).2 (str "3")).map
      (fun new => (json.Unmarshal new Tuna.zero).1.Status)) ≠ some [0xFF] := by
  decide

/-- C3 (amended): for every store state reached from the empty store by a sequence of
successful writes of marshalled records, if neither the scan nor the iteration fails and
every written key in the interval `["0", "999")` is valid UTF-8 without double quote,
backslash and control byte, then `queryAllTuna` returns a JSON array whose elements carry
their keys in strictly ascending lexicographic order, and the number of elements equals the
number of distinct keys written that lie in `["0", "999")`. -/
theorem C3_queryAllTuna_ascending_and_count (stub stub1 : Stub) (ws : List (Bytes × Tuna))
    (h0 : stub.state = []) (h : applyWrites ws stub = some stub1)
    (hscan : stub1.scanFails (str "0") (str "999") = none)
    (hnext : ∀ i, stub1.nextFails i = none)
    (hsafe : ∀ w ∈ ws, inRange (str "0") (str "999") w.1 = true → safeKey w.1 = true) :
    ∃ keys, responseKeys (queryAllTuna stub1).1 = some keys ∧
      List.Pairwise (fun a b => keyLt a b = true) keys ∧
      keys.length =
        (((ws.map Prod.fst).dedup).filter (inRange (str "0") (str "999"))).length := by
  refine ⟨(scanEntries stub1 (str "0") (str "999")).map Prod.fst, ?_,
    ascending_scanEntries stub1 _ _, ?_⟩
  · refine responseKeys_queryAllTuna stub1 hscan hnext ?_
    intro e he
    have hmem := List.mem_filter.mp he
    rcases applyWrites_mem ws stub stub1 h e (mem_sortEntries _ e hmem.1) with h1 | ⟨w, hw, h1⟩
    · rw [h0] at h1
      simp at h1
    · subst h1
      exact ⟨hsafe w hw hmem.2, w.2, rfl⟩
  · rw [List.length_map]
    exact length_scanEntries_writes ws stub stub1 h0 h _ _

/-- C3, witness: the amended statement for the writes of records under the keys `"2"`,
`"A"`, `"10"` and `"2"` again to the empty store. -/
theorem C3_queryAllTuna_ascending_and_count_witness :
    ∃ keys, responseKeys (queryAllTuna { Stub.empty with state :=
        [(str "2", json.Marshal ⟨str "d", [], [], [], [], [], []⟩),
          (str "10", json.Marshal ⟨str "c", [], [], [], [], [], []⟩),
          (str "A", json.Marshal ⟨str "b", [], [], [], [], [], []⟩)] }).1 = some keys ∧
      List.Pairwise (fun a b => keyLt a b = true) keys ∧
      keys.length =
        ((([(str "2", (⟨str "a", [], [], [], [], [], []⟩ : Tuna)),
            (str "A", ⟨str "b", [], [], [], [], [], []⟩),
            (str "10", ⟨str "c", [], [], [], [], [], []⟩),
            (str "2", ⟨str "d", [], [], [], [], [], []⟩)].map Prod.fst).dedup).filter
          (inRange (str "0") (str "999"))).length :=
  C3_queryAllTuna_ascending_and_count Stub.empty
    { Stub.empty with state :=
        [(str "2", json.Marshal ⟨str "d", [], [], [], [], [], []⟩),
          (str "10", json.Marshal ⟨str "c", [], [], [], [], [], []⟩),
          (str "A", json.Marshal ⟨str "b", [], [], [], [], [], []⟩)] }
    [(str "2", ⟨str "a", [], [], [], [], [], []⟩), (str "A", ⟨str "b", [], [], [], [], [], []⟩),
      (str "10", ⟨str "c", [], [], [], [], [], []⟩),
      (str "2", ⟨str "d", [], [], [], [], [], []⟩)]
    rfl rfl rfl (fun _ => rfl) (by decide)

/-- C3, counterexample: after a successful `recordTuna` under the key `"A"` on the empty
store, one distinct key has been written, yet `queryAllTuna` returns the empty array, of no
element: the key lies outside `["0", "999")`. -/
theorem C3_count_misses_keys_outside_range :
    (recordTuna Stub.empty [str "A", [], [], [], [], [], [], []]).1 = Response.Success none ∧
    (queryAllTuna (recordTuna Stub.empty [str "A", [], [], [], [], [], [], []]).2).1
      = Response.Success (some (str "[]")) ∧
    responseKeys (queryAllTuna (recordTuna Stub.empty
      [str "A", [], [], [], [], [], [], []]).2).1 = some [] ∧
    ((recordTuna Stub.empty [str "A", [], [], [], [], [], [], []]).2.state.map
      Prod.fst).dedup.length = 1 := by
  decide

/-- C4: for every store state and every argument list, `recordTuna` returns an error when
the argument count is not 8 and `changeStatus` returns an error when the argument count is
not 2, and in both cases the store is unchanged. -/
theorem C4_wrong_arity_is_rejected (stub : Stub) (args : List Bytes) :
    (args.length ≠ 8 → recordTuna stub args =
      (Response.Error (str "Incorrect number of arguments. Expecting 8"), stub)) ∧
    (args.length ≠ 2 → changeStatus stub args =
      (Response.Error (str "Incorrect number of arguments. Expecting 2"), stub)) := by
  constructor
  · intro h
    unfold recordTuna
    rw [if_pos h]
  · intro h
    unfold changeStatus
    rw [if_pos h]

/-- C4, witness: three arguments are rejected by both handlers. -/
theorem C4_wrong_arity_is_rejected_witness :
    recordTuna Stub.empty [str "a", str "b", str "c"] =
      (Response.Error (str "Incorrect number of arguments. Expecting 8"), Stub.empty) ∧
    changeStatus Stub.empty [str "a", str "b", str "c"] =
      (Response.Error (str "Incorrect number of arguments. Expecting 2"), Stub.empty) :=
  ⟨(C4_wrong_arity_is_rejected Stub.empty [str "a", str "b", str "c"]).1 (by decide),
    (C4_wrong_arity_is_rejected Stub.empty [str "a", str "b", str "c"]).2 (by decide)⟩

/-- C5 (the code at the failing input): on the seeded store with a platform that cannot
serve the reads, the key "1" is present, yet `queryTuna` with `["1"]` answers with the
not-found error "Could not locate tuna": the error of `GetState` is dropped and the missing
bytes are taken for an absent key. -/
theorem C5_queryTuna_failed_read_reads_as_absent :
    stored { (initLedger Stub.empty).2 with getFails := fun _ => true } (str "1") =
      some (json.Marshal ⟨str "923F", str "10", str "24", str "67.0006, -70.5476",
        str "1504054225", str "In", []⟩) ∧
    GetState { (initLedger Stub.empty).2 with getFails := fun _ => true } (str "1") =
      (none, true) ∧
    (queryTuna { (initLedger Stub.empty).2 with getFails := fun _ => true } [str "1"]).1 =
      Response.Error (str "Could not locate tuna") := by
  decide

/-- C6 (amended): starting from an empty store on which no put fails, and when neither the
scan nor the iteration fails, `initLedger` followed by `queryAllTuna` returns a JSON array
of exactly 10 elements whose keys are "1", "10", "2", "3", "4", "5", "6", "7", "8", "9" in
that order, the ascending lexicographic order. -/
theorem C6_seed_then_queryAll_keys (stub : Stub) (h0 : stub.state = [])
    (hput : ∀ key value, stub.putFails key value = false)
    (hscan : stub.scanFails (str "0") (str "999") = none)
    (hnext : ∀ i, stub.nextFails i = none) :
    responseKeys (queryAllTuna (initLedger stub).2).1 =
      some [str "1", str "10", str "2", str "3", str "4", str "5", str "6", str "7", str "8",
        str "9"] := by
  have hf : stub.putFails = Stub.empty.putFails :=
    funext (fun k => funext (fun v => hput k v))
  obtain ⟨hstate, hs, hn, _⟩ := initLedgerLoop_congr initLedgerTuna 0 stub Stub.empty h0 hf
  have hscan1 : (initLedger stub).2.scanFails (str "0") (str "999") = none := by
    show (initLedgerLoop initLedgerTuna 0 stub).scanFails (str "0") (str "999") = none
    rw [hs]
    exact hscan
  have hnext1 : ∀ i, (initLedger stub).2.nextFails i = none := by
    intro i
    show (initLedgerLoop initLedgerTuna 0 stub).nextFails i = none
    rw [hn]
    exact hnext i
  have hentries : scanEntries (initLedger stub).2 (str "0") (str "999") =
      scanEntries (initLedger Stub.empty).2 (str "0") (str "999") := by
    show (sortEntries (initLedgerLoop initLedgerTuna 0 stub).state).filter _ =
      (sortEntries (initLedgerLoop initLedgerTuna 0 Stub.empty).state).filter _
    rw [hstate]
  rw [queryAllTuna_working _ hscan1 hnext1, hentries]
  show responseKeys (Response.Success (some (str "[" ++
    arrayMembers (scanEntries (initLedger Stub.empty).2 (str "0") (str "999")) ++ str "]"))) = _
  decide

/-- C6, witness: the amended statement at the empty stub. -/
theorem C6_seed_then_queryAll_keys_witness :
    responseKeys (queryAllTuna (initLedger Stub.empty).2).1 =
      some [str "1", str "10", str "2", str "3", str "4", str "5", str "6", str "7", str "8",
        str "9"] :=
  C6_seed_then_queryAll_keys Stub.empty rfl (fun _ _ => rfl) rfl (fun _ => rfl)

/-- C6, counterexample: on the empty store, the keys of the elements that `queryAllTuna`
returns after `initLedger` are not "1", "2", ..., "10" in that order. -/
theorem C6_keys_not_in_numeric_order :
    responseKeys (queryAllTuna (initLedger Stub.empty).2).1 ≠
      some [str "1", str "2", str "3", str "4", str "5", str "6", str "7", str "8", str "9",
        str "10"] := by
  decide

/-- C7 (amended): for every store state, after `recordTuna` with the arguments
`["923F","923F","10","24","67.0006,-70.5476","1504054225","In",""]` succeeds, and when the
read of the key afterwards returns no error, `queryTuna` with `["923F"]` returns a record
whose location field is "67.0006,-70.5476", the argument as given (and whose other fields
are the other arguments). -/
theorem C7_scenario_location_as_given (stub : Stub)
    (hput : (recordTuna stub [str "923F", str "923F", str "10", str "24",
      str "67.0006,-70.5476", str "1504054225", str "In", []]).1 = Response.Success none)
    (hread : (GetState (recordTuna stub [str "923F", str "923F", str "10", str "24",
      str "67.0006,-70.5476", str "1504054225", str "In", []]).2 (str "923F")).2 = false) :
    decodedRecord (queryTuna (recordTuna stub [str "923F", str "923F", str "10", str "24",
      str "67.0006,-70.5476", str "1504054225", str "In", []]).2 [str "923F"]).1
      = some ⟨str "923F", str "10", str "24", str "67.0006,-70.5476", str "1504054225",
        str "In", []⟩ :=
  recordTuna_queryTuna stub (str "923F") (str "923F") (str "10") (str "24")
    (str "67.0006,-70.5476") (str "1504054225") (str "In") [] (by decide) hput hread

/-- C7, witness: the amended scenario on the empty store. -/
theorem C7_scenario_location_as_given_witness :
    decodedRecord (queryTuna (recordTuna Stub.empty [str "923F", str "923F", str "10",
      str "24", str "67.0006,-70.5476", str "1504054225", str "In", []]).2 [str "923F"]).1
      = some ⟨str "923F", str "10", str "24", str "67.0006,-70.5476", str "1504054225",
        str "In", []⟩ :=
  C7_scenario_location_as_given Stub.empty (by decide) (by decide)

/-- C7, counterexample: on the empty store the put of the scenario succeeds and the
location of the record that `queryTuna` returns is not "67.0006, -70.5476" (with a
blank). -/
theorem C7_location_has_no_blank :
    (recordTuna Stub.empty [str "923F", str "923F", str "10", str "24",
      str "67.0006,-70.5476", str "1504054225", str "In", []]).1 = Response.Success none ∧
    (decodedRecord (queryTuna (recordTuna Stub.empty [str "923F", str "923F", str "10",
      str "24", str "67.0006,-70.5476", str "1504054225", str "In", []]).2
        [str "923F"]).1).map Tuna.Location ≠ some (str "67.0006, -70.5476") := by
  decide

/-- C8 (the code at the failing input): on an empty store whose platform refuses every put
under the key "1", `initLedger` reports success, and it has gone on to put the records of
the later seed keys "2" to "10". -/
theorem C8_initLedger_ignores_failed_put :
    PutState { Stub.empty with putFails := fun key _ => decide (key = str "1") } (str "1")
      (json.Marshal ⟨str "923F", str "10", str "24", str "67.0006, -70.5476",
        str "1504054225", str "In", []⟩) = none ∧
    (initLedger { Stub.empty with putFails := fun key _ => decide (key = str "1") }).1
      = Response.Success none ∧
    (initLedger
        { Stub.empty with putFails := fun key _ => decide (key = str "1") }).2.state.map
      Prod.fst =
      [str "10", str "9", str "8", str "7", str "6", str "5", str "4", str "3", str "2"] := by
  refine ⟨rfl, rfl, ?_⟩
  decide

/-- C9 (the code at the failing input): after a successful `recordTuna` under the key
`1"` (a digit and a double quote) on the empty store, the payload of `queryAllTuna` is not
a well-formed JSON text: the key is written between quotes without escaping. -/
theorem C9_queryAllTuna_payload_not_json :
    (recordTuna Stub.empty [str "1\"", [], [], [], [], [], [], []]).1
      = Response.Success none ∧
    (queryAllTuna (recordTuna Stub.empty [str "1\"", [], [], [], [], [], [], []]).2).1
      = Response.Success (some (str ("[\x7b\"Key\":\"1\"\", \"Record\":\x7b\"id\":\"\"," ++
          "\"temperature\":\"\",\"humidity\":\"\",\"location\":\"\",\"timestamp\":\"\"," ++
          "\"agreement\":\"\",\"status\":\"\"\x7d\x7d]"))) ∧
    json.Valid (str ("[\x7b\"Key\":\"1\"\", \"Record\":\x7b\"id\":\"\"," ++
          "\"temperature\":\"\",\"humidity\":\"\",\"location\":\"\",\"timestamp\":\"\"," ++
          "\"agreement\":\"\",\"status\":\"\"\x7d\x7d]")) = false := by
  decide

/-- C10: for every store state, function name and argument list, if `Invoke` returns an
error then the store after the invocation equals the store before it; and a function name
outside the five handled names is rejected with the error "Invalid function name.",
whatever the store holds, and leaves the store as it is. -/
theorem C10_invoke_error_leaves_store (stub : Stub) (function : Bytes) (args : List Bytes) :
    (∀ message, (Invoke stub function args).1 = Response.Error message →
      (Invoke stub function args).2 = stub) ∧
    (function ∉ [str "queryTuna", str "queryAllTuna", str "changeStatus", str "initLedger",
        str "recordTuna"] →
      Invoke stub function args = (Response.Error (str "Invalid function name."), stub)) := by
  constructor
  · intro message h
    unfold Invoke at h ⊢
    split_ifs at h ⊢
    · unfold queryTuna
      split_ifs
      · rfl
      · cases (GetState stub (args.getD 0 [])).1 <;> rfl
    · unfold queryAllTuna
      cases GetStateByRange stub (str "0") (str "999") with
      | error err => rfl
      | ok resultsIterator =>
        simp only
        cases queryAllTunaLoop resultsIterator false (str "[") <;> rfl
    · unfold changeStatus at h ⊢
      split_ifs at h ⊢
      · rfl
      · cases hg : (GetState stub (args.getD 0 [])).1 with
        | none => rfl
        | some old =>
          rw [hg] at h
          simp only at h ⊢
          cases hp : PutState stub (args.getD 0 [])
              (json.Marshal { (json.Unmarshal old Tuna.zero).1 with
                Status := args.getD 1 [] }) with
          | none => rfl
          | some stub1 =>
            rw [hp] at h
            simp at h
    · simp [initLedger] at h
    · unfold recordTuna at h ⊢
      split_ifs at h ⊢
      · rfl
      · simp only at h ⊢
        cases hp : PutState stub (args.getD 0 [])
            (json.Marshal ⟨args.getD 1 [], args.getD 2 [], args.getD 3 [], args.getD 4 [],
              args.getD 5 [], args.getD 6 [], args.getD 7 []⟩) with
        | none => rfl
        | some stub1 =>
          rw [hp] at h
          simp at h
    · rfl
  · intro h
    simp only [List.mem_cons, List.mem_singleton, List.not_mem_nil, or_false, not_or] at h
    obtain ⟨h1, h2, h3, h4, h5⟩ := h
    unfold Invoke
    rw [if_neg h1, if_neg h2, if_neg h3, if_neg h4, if_neg h5]

/-- C10, witness: a failed put in `recordTuna` and an unknown function name both leave the
store as it was. -/
theorem C10_invoke_error_leaves_store_witness :
    (Invoke { Stub.empty with putFails := fun _ _ => true } (str "recordTuna")
        [str "1", [], [], [], [], [], [], []]).2
      = { Stub.empty with putFails := fun _ _ => true } ∧
    Invoke (initLedger Stub.empty).2 (str "deleteTuna") [str "1"] =
      (Response.Error (str "Invalid function name."), (initLedger Stub.empty).2) :=
  ⟨(C10_invoke_error_leaves_store { Stub.empty with putFails := fun _ _ => true }
      (str "recordTuna") [str "1", [], [], [], [], [], [], []]).1 (str "Failed to record tuna catch: 1") rfl,
    (C10_invoke_error_leaves_store (initLedger Stub.empty).2 (str "deleteTuna")
      [str "1"]).2 (by decide)⟩

end TunaChaincode
